import Mathlib

/-!
Verification of the MCS style-fixing scripts (`src/scripts/*.py`).

Texts are modelled as `List Char`; a file's content is one list of
characters, and `List.splitOn '\n'` / `['\n'].intercalate` model Python's
`content.split('\n')` / `'\n'.join(lines)`.  Python's regular expressions
used by the scripts have no genuine backtracking on the shapes involved
(every quantified class is disjoint from the character that follows it),
so each is embedded as a deterministic scanner.  `\s` is modelled by the
ASCII whitespace class and `\w` by ASCII alphanumerics plus underscore,
matching the characters these scripts actually meet.
-/

set_option maxRecDepth 10000

/-- One line of text (no `'\n'` inside once produced by `splitOn`). -/
abbrev Line := List Char

/-- Python's `\s` class (ASCII part): space, tab, newline, CR, VT, FF. -/
def pyWS (c : Char) : Bool :=
  c = ' ' || c = '\t' || c = '\n' || c = '\x0d' || c = '\x0b' || c = '\x0c'

/-- Python's `\w` class (ASCII part): letters, digits, underscore. -/
def pyWord (c : Char) : Bool :=
  ('a' ≤ c && c ≤ 'z') || ('A' ≤ c && c ≤ 'Z') || ('0' ≤ c && c ≤ '9') || c = '_'

/-- `[a-z_]` class of `fix_test_names.py`. -/
def lowUnd (c : Char) : Bool :=
  ('a' ≤ c && c ≤ 'z') || c = '_'

/-- Strip a literal from the front of a line (`None` when it is absent);
models anchored literal parts of the regexes and `str.startswith`. -/
def dropPfx : Line → Line → Option Line
  | [], l => some l
  | _ :: _, [] => none
  | p :: ps, c :: cs => if c = p then dropPfx ps cs else none

/-- `str.startswith` as a Boolean. -/
def startsB (p l : Line) : Bool :=
  (dropPfx p l).isSome

/-- Python `str.lstrip()`. -/
def pyLstrip (l : Line) : Line :=
  l.dropWhile pyWS

/-- Python `str.strip()`. -/
def pyStrip (l : Line) : Line :=
  ((l.dropWhile pyWS).reverse.dropWhile pyWS).reverse

/-! ## `fix_mcs_borders.py` -/

/-- Scanner for `^// {lg}{fill}+\s+(\w+)\s+{fill}+{rg}\s*$` together with
the name extraction `re.search(r'{fill}+\s+(\w+)\s+{fill}+')`; on these
lines the search returns exactly the `\w+` group of the anchored match.
Returns the captured section name. -/
def parseWideOpener (lg fill rg : Char) (l : Line) : Option Line :=
  match dropPfx ['/', '/', ' ', lg] l with
  | none => none
  | some r0 =>
    let f1 := r0.takeWhile (· = fill)
    let r1 := r0.dropWhile (· = fill)
    if f1 = [] then none else
    let w1 := r1.takeWhile pyWS
    let r2 := r1.dropWhile pyWS
    if w1 = [] then none else
    let nm := r2.takeWhile pyWord
    let r3 := r2.dropWhile pyWord
    if nm = [] then none else
    let w2 := r3.takeWhile pyWS
    let r4 := r3.dropWhile pyWS
    if w2 = [] then none else
    let f2 := r4.takeWhile (· = fill)
    let r5 := r4.dropWhile (· = fill)
    if f2 = [] then none else
    match dropPfx [rg] r5 with
    | none => none
    | some r6 => if r6.dropWhile pyWS = [] then some nm else none

/-- Scanner for `^// {lg}{fill}+{rg}\s*$` (a closer border line). -/
def parseWideCloser (lg fill rg : Char) (l : Line) : Bool :=
  match dropPfx ['/', '/', ' ', lg] l with
  | none => false
  | some r0 =>
    let f1 := r0.takeWhile (· = fill)
    let r1 := r0.dropWhile (· = fill)
    if f1 = [] then false else
    match dropPfx [rg] r1 with
    | none => false
    | some r2 => r2.dropWhile pyWS = []

/-- The opener rebuild of `fix_mcs_borders.py` (lines 22–31 / 49–56):
`base_len = 4 + len(name) + 1 + 2`, `padding_total = 88 - base_len`,
`padding_each = padding_total // 2` (Python floor division), and the
reconstruction, including the dead `len != 88` adjustment branch.
Python's `'═' * k` for `k ≤ 0` is the empty string, hence `Int.toNat`. -/
def mkOpener (lg fill rg : Char) (nm : Line) : Line :=
  let baseLen : Int := 4 + (nm.length : Int) + 1 + 2
  let total : Int := 88 - baseLen
  let each : Int := Int.fdiv total 2
  let nl : Line :=
    ['/', '/', ' ', lg] ++ List.replicate each.toNat fill ++ [' '] ++ nm ++ [' ']
      ++ List.replicate (total - each).toNat fill ++ [rg]
  if nl.length ≠ 88 then
    let diff : Int := 88 - (nl.length : Int)
    ['/', '/', ' ', lg] ++ List.replicate (each + diff).toNat fill ++ [' '] ++ nm ++ [' ']
      ++ List.replicate (total - each).toNat fill ++ [rg]
  else nl

/-- The canonical main closer `"// ╚" + "═"*84 + "╝"` (line 39). -/
def mainCloser : Line :=
  ['/', '/', ' ', '╚'] ++ List.replicate 84 '═' ++ ['╝']

/-- The canonical subsection closer `"// └" + "─"*84 + "┘"` (line 64). -/
def subCloser : Line :=
  ['/', '/', ' ', '└'] ++ List.replicate 84 '─' ++ ['┘']

/-- Per-line action of `fix_section_borders` — the four `elif` branches in
source order; an unrecognized line is returned unchanged. -/
def fixBorderLine (l : Line) : Line :=
  match parseWideOpener '╔' '═' '╗' l with
  | some nm => mkOpener '╔' '═' '╗' nm
  | none =>
    if parseWideCloser '╚' '═' '╝' l then mainCloser
    else
      match parseWideOpener '┌' '─' '┐' l with
      | some nm => mkOpener '┌' '─' '┐' nm
      | none =>
        if parseWideCloser '└' '─' '┘' l then subCloser
        else l

/-- Is a line recognized by one of the four border patterns? -/
def recognizedBorder (l : Line) : Bool :=
  (parseWideOpener '╔' '═' '╗' l).isSome || parseWideCloser '╚' '═' '╝' l
    || (parseWideOpener '┌' '─' '┐' l).isSome || parseWideCloser '└' '─' '┘' l

/-- `fix_section_borders(content)` (lines 9–69): split on newlines, rewrite
each recognized border line, re-join; `modified` is set exactly when some
line was replaced by a different one. -/
def fixSectionBorders (content : List Char) : List Char × Bool :=
  let lines := content.splitOn '\n'
  (['\n'].intercalate (lines.map fixBorderLine),
    lines.any fun l => decide (fixBorderLine l ≠ l))

/-! ## `fix_repo_urls.py` -/

/-- Try `// docs   : https://[^/]+/(.*)` anchored at the head of `l`;
returns the captured path (`.*` runs to the end of the line). -/
def docsMatchAt (l : Line) : Option Line :=
  match dropPfx ("// docs   : https://".data) l with
  | none => none
  | some r =>
    let auth := r.takeWhile (· ≠ '/')
    let r2 := r.dropWhile (· ≠ '/')
    if auth = [] then none else
    match dropPfx ['/'] r2 with
    | none => none
    | some r3 => some r3

/-- `re.search` of the docs pattern: leftmost position where it matches. -/
def docsSearch : Line → Option Line
  | [] => none
  | l@(_ :: cs) =>
    match docsMatchAt l with
    | some p => some p
    | none => docsSearch cs

/-- Per-line action of `fix_repo_urls` (lines 13–36): the `repo` branch
replaces the whole line with the canonical repo URL, the `docs` branch
re-bases the path after the authority onto the canonical authority, and
the `author` branch is an explicit pass-through. -/
def fixUrlLine (l : Line) : Line :=
  if startsB ("// repo   : ".data) l then
    "// repo   : https://github.com/fisty/zig-nfl-clock".data
  else if startsB ("// docs   : ".data) l then
    match docsSearch l with
    | some path => "// docs   : https://fisty.github.io/zig-nfl-clock/".data ++ path
    | none => l
  else l

/-- `fix_repo_urls(content)` (lines 8–38). -/
def fixRepoUrls (content : List Char) : List Char × Bool :=
  let lines := content.splitOn '\n'
  (['\n'].intercalate (lines.map fixUrlLine),
    lines.any fun l => decide (fixUrlLine l ≠ l))

/-! ## `fix_test_braces.py` -/

/-- Scanner for `^(\s*)test\s+"[^"]+"\s*$` (line 15). -/
def parseBraceLine (l : Line) : Bool :=
  let r0 := l.dropWhile pyWS
  match dropPfx ("test".data) r0 with
  | none => false
  | some r1 =>
    let w := r1.takeWhile pyWS
    let r2 := r1.dropWhile pyWS
    if w = [] then false else
    match dropPfx ['"'] r2 with
    | none => false
    | some r3 =>
      let mid := r3.takeWhile (· ≠ '"')
      let r4 := r3.dropWhile (· ≠ '"')
      if mid = [] then false else
      match dropPfx ['"'] r4 with
      | none => false
      | some r5 => r5.dropWhile pyWS = []

/-- Per-line action of `fix_test_braces`: append `" {"` to a matching
line, leave every other line untouched. -/
def fixBraceLine (l : Line) : Line :=
  if parseBraceLine l then l ++ [' ', '\x7b'] else l

/-- `fix_test_braces(content)` (lines 8–21); `modified` is set exactly on
the matched lines. -/
def fixTestBraces (content : List Char) : List Char × Bool :=
  let lines := content.splitOn '\n'
  (['\n'].intercalate (lines.map fixBraceLine),
    lines.any parseBraceLine)

/-! ## `fix_test_names.py` -/

/-- The `special_cases` table of `pascalize` (lines 11–17). -/
def specialCases : List (Line × Line) :=
  [("game_clock".data, "GameClock".data),
   ("time_formatter".data, "TimeFormatter".data),
   ("rules_engine".data, "RulesEngine".data),
   ("play_handler".data, "PlayHandler".data),
   ("config".data, "Config".data)]

/-- Python `str.capitalize()` (ASCII): first character uppercased, the
rest lowercased. -/
def pyCapitalize : Line → Line
  | [] => []
  | c :: cs => c.toUpper :: cs.map Char.toLower

/-- `pascalize(snake_case)` (lines 8–24): table lookup, else split on
`'_'`, capitalize each piece, concatenate. -/
def pascalize (s : Line) : Line :=
  match specialCases.find? (fun p => p.1 = s) with
  | some p => p.2
  | none => ((s.splitOn '_').map pyCapitalize).flatten

/-- Index (from the front) of the last `'"'` in `l`, if any. -/
def lastQuoteIdx (l : Line) : Option Nat :=
  match l.reverse.findIdx? (· = '"') with
  | none => none
  | some r => some (l.length - 1 - r)

/-- Scanner for `^(\s*)test\s+"([^:]+):\s+([a-z_]+):\s+(.+)"` (line 34).
The final `\s+(.+)"` is resolved the way Python's engine does: with `R`
the text after the second `:`, the match uses the last `'"'` of `R`, at
index `q ≥ 2`; the whitespace run gets `i = min(w0, q - 1)` characters
(`w0` the maximal run, shrunk only if the description would be empty)
and the description is `R[i..q)`.  Text after that quote is not part of
the match (the pattern is unanchored at the right).  Returns
`(indent, category, component, description)`. -/
def parseNameLine (l : Line) : Option (Line × Line × Line × Line) :=
  let ind := l.takeWhile pyWS
  let r0 := l.dropWhile pyWS
  match dropPfx ("test".data) r0 with
  | none => none
  | some r1 =>
    let w := r1.takeWhile pyWS
    let r2 := r1.dropWhile pyWS
    if w = [] then none else
    match dropPfx ['"'] r2 with
    | none => none
    | some r3 =>
      let cat := r3.takeWhile (· ≠ ':')
      let r4 := r3.dropWhile (· ≠ ':')
      if cat = [] then none else
      match dropPfx [':'] r4 with
      | none => none
      | some r5 =>
        let w2 := r5.takeWhile pyWS
        let r6 := r5.dropWhile pyWS
        if w2 = [] then none else
        let comp := r6.takeWhile lowUnd
        let r7 := r6.dropWhile lowUnd
        if comp = [] then none else
        match dropPfx [':'] r7 with
        | none => none
        | some r8 =>
          let w0 := (r8.takeWhile pyWS).length
          if w0 = 0 then none else
          match lastQuoteIdx r8 with
          | none => none
          | some q =>
            if q < 2 then none else
            let i := min w0 (q - 1)
            some (ind, cat, comp, (r8.drop i).take (q - i))

/-- Per-line action of `fix_test_names` (lines 31–43): when the pattern
matches and `pascalize` changes the component, the line is rebuilt as
`{indent}test "{category}: {Pascal}: {description}"` — anything after
the closing quote of the match is dropped. -/
def fixNameLine (l : Line) : Line :=
  match parseNameLine l with
  | none => l
  | some (ind, cat, comp, desc) =>
    if pascalize comp ≠ comp then
      ind ++ "test \"".data ++ cat ++ [':', ' '] ++ pascalize comp ++ [':', ' ']
        ++ desc ++ ['"']
    else l

/-- Did `fix_test_names` set `modified` on this line: the pattern matched
and `pascalize` changed the component. -/
def nameFlag (l : Line) : Bool :=
  match parseNameLine l with
  | some (_, _, comp, _) => decide (pascalize comp ≠ comp)
  | none => false

/-- `fix_test_names(content)` (lines 26–45); `modified` is set exactly on
lines where the pattern matched and the component changed. -/
def fixTestNames (content : List Char) : List Char × Bool :=
  let lines := content.splitOn '\n'
  (['\n'].intercalate (lines.map fixNameLine), lines.any nameFlag)

/-! ## `apply_mcs_fixes.py` -/

/-- Substring containment, Python's `in` on strings. -/
def infixB (p : Line) : Line → Bool
  | [] => startsB p []
  | l@(_ :: cs) => startsB p l || infixB p cs

/-- Replace every (leftmost, non-overlapping) match of `matchAt` by
`repl`; `matchAt` returns the remainder after a match anchored at the
scan position.  Fuel equals the text length; every matcher used here
consumes at least one character, so the fuel never runs out. -/
def subAllAux (matchAt : Line → Option Line) (repl : Line) : Nat → Line → Line
  | _, [] => []
  | 0, l => l
  | n + 1, l =>
    match matchAt l with
    | some rest => repl ++ subAllAux matchAt repl n rest
    | none =>
      match l with
      | [] => []
      | c :: cs => c :: subAllAux matchAt repl n cs

/-- `re.sub`-style global replacement. -/
def subAll (matchAt : Line → Option Line) (repl : Line) (text : Line) : Line :=
  subAllAux matchAt repl text.length text

/-- Literal replacement, Python's `str.replace(pat, repl)`. -/
def pyReplace (pat repl text : Line) : Line :=
  subAll (dropPfx pat) repl text

/-- Matcher for `r'// =+\n//  {sec}\n// =+'` (the PACK/INIT/CORE/TYPES
substitutions, lines 58–86). -/
def eqBorderMatchAt (sec : Line) (l : Line) : Option Line :=
  match dropPfx ("// ".data) l with
  | none => none
  | some r0 =>
    let e1 := r0.takeWhile (· = '=')
    let r1 := r0.dropWhile (· = '=')
    if e1 = [] then none else
    match dropPfx (['\n'] ++ "//  ".data ++ sec ++ ['\n'] ++ "// ".data) r1 with
    | none => none
    | some r2 =>
      let e2 := r2.takeWhile (· = '=')
      let r3 := r2.dropWhile (· = '=')
      if e2 = [] then none else some r3

/-- Matcher for `r'// =+\n//  TEST.*?\n// =+'` (line 77): the lazy `.*?`
cannot cross a newline, so it runs exactly to the first `'\n'` after
`TEST`, where `\n// =+` must match. -/
def testBorderMatchAt (l : Line) : Option Line :=
  match dropPfx ("// ".data) l with
  | none => none
  | some r0 =>
    let e1 := r0.takeWhile (· = '=')
    let r1 := r0.dropWhile (· = '=')
    if e1 = [] then none else
    match dropPfx (['\n'] ++ "//  ".data ++ "TEST".data) r1 with
    | none => none
    | some r2 =>
      let r3 := r2.dropWhile (· ≠ '\n')
      match dropPfx (['\n'] ++ "// ".data) r3 with
      | none => none
      | some r4 =>
        let e2 := r4.takeWhile (· = '=')
        let r5 := r4.dropWhile (· = '=')
        if e2 = [] then none else some r5

/-- The hard-coded replacement opener `"// ╔" + 38·"═" + " {sec} " +
38·"═" + "╗"` of lines 58–86. -/
def openerHard (sec : Line) : Line :=
  ['/', '/', ' ', '╔'] ++ List.replicate 38 '═' ++ [' '] ++ sec ++ [' ']
    ++ List.replicate 38 '═' ++ ['╗']

/-- The closer inserted by the loop: `"// ╚" + 90·"═" + "╝"`
(lines 101 and 118, identical strings). -/
def applyCloser : Line :=
  ['/', '/', ' ', '╚'] ++ List.replicate 90 '═' ++ ['╝']

/-- `sections = ['PACK', 'INIT', 'CORE', 'TEST', 'TYPES']` (line 89). -/
def sectionNames : List Line :=
  ["PACK".data, "INIT".data, "CORE".data, "TEST".data, "TYPES".data]

/-- The containment probe `f'══…(38)══ {section} ═══' in line` (line 97). -/
def openProbe (sec : Line) : Line :=
  List.replicate 38 '═' ++ [' '] ++ sec ++ [' '] ++ List.replicate 3 '═'

/-- First section (in list order) whose probe occurs in the line. -/
def findSec (l : Line) : Option Line :=
  sectionNames.find? fun s => infixB (openProbe s) l

/-- The body-indentation step applied right after a line is appended
(lines 109–113), using the `in_section` value current at that point. -/
def emitLine (inSec : Option Line) (l : Line) : Line :=
  if inSec.isSome && !startsB ("//".data) l && !decide (pyStrip l = [])
      && !startsB ("    ".data) l && !startsB ("test ".data) l then
    List.replicate 4 ' ' ++ pyLstrip l
  else l

/-- The closer-insertion scan of `apply_mcs_fixes` (lines 91–118):
on a line recognized as a section opener, first close the previously
open section (blank line, closer, blank line) when one is open and the
index is positive, then emit the line; every emitted line gets the
indentation fix; at end of input an open section is closed with a
blank line and a closer.  `in_section` is never reset by anything but
a new opener. -/
def secLoop (i : Nat) (inSec : Option Line) : List Line → List Line
  | [] => if inSec.isSome then [[], applyCloser] else []
  | l :: ls =>
    match findSec l with
    | some s =>
      (if inSec.isSome ∧ 0 < i then [[], applyCloser, []] else [])
        ++ emitLine (some s) l :: secLoop (i + 1) (some s) ls
    | none => emitLine inSec l :: secLoop (i + 1) inSec ls

/-- The final test-declaration indentation sweep (lines 121–127). -/
def testIndentLine (l : Line) : Line :=
  if startsB ("test \"".data) (pyStrip l) then List.replicate 4 ' ' ++ pyLstrip l
  else l

/-- Lines 89–127 of `apply_mcs_fixes`: closer insertion, body
indentation, then the test-indent sweep. -/
def applySectionPass (lines : List Line) : List Line :=
  (secLoop 0 none lines).map testIndentLine

/-- `get_mcs_header` (lines 8–16). -/
def mcsHeader (filename description path : Line) : Line :=
  "// ".data ++ filename ++ " — ".data ++ description
    ++ "\n//\n// repo   : https://github.com/zig-nfl-clock\n// docs   : https://zig-nfl-clock.github.io/docs/".data
    ++ path ++ "\n// author : https://github.com/scoomboot\n//\n// Vibe coded by Scoom.".data

/-- The filename-keyword description rules (lines 25–38), first match
wins. -/
def chooseDescription (filename : Line) : Line :=
  if infixB ("test".data) filename then
    if infixB ("rules_engine".data) filename then "Tests for NFL game clock rules engine".data
    else if infixB ("play_handler".data) filename then "Tests for play outcome processing".data
    else "Test file".data
  else
    if infixB ("rules_engine".data) filename then "NFL game clock rules engine".data
    else if infixB ("play_handler".data) filename then "Play outcome processing for game clock".data
    else "Implementation file".data

/-- The header-boundary scan (lines 47–52): first index `i < 10` whose
line is non-blank and does not start with `//`; defaults to 0. -/
def findStartAux (i : Nat) : List Line → Option Nat
  | [] => none
  | l :: ls =>
    if ¬ decide (pyStrip l = []) ∧ ¬ startsB ("//".data) l then some i
    else findStartAux (i + 1) ls

/-- `start_idx` of `apply_mcs_fixes`. -/
def findStart (lines : List Line) : Nat :=
  (findStartAux 0 (lines.take 10)).getD 0

/-- `apply_mcs_fixes(file_path)` (lines 18–133), as a pure content
transformation: the filename is the last `/`-separated component of the
path, the docs path drops the fixed project-root - and the result is the
generated header, a blank line, and the transformed remainder.  The
write-back at line 133 is unconditional. -/
def applyMcsFixes (filePath : Line) (content : List Char) : List Char :=
  let filename := (filePath.splitOn '/').getLastD []
  let description := chooseDescription filename
  let relPath := pyReplace ("/home/fisty/code/zig-nfl-clock/".data) [] filePath
  let newHeader := mcsHeader filename description relPath
  let lines := content.splitOn '\n'
  let remaining := ['\n'].intercalate (lines.drop (findStart lines))
  let r1 := subAll (eqBorderMatchAt ("PACK".data)) (openerHard ("PACK".data)) remaining
  let r2 := subAll (eqBorderMatchAt ("INIT".data)) (openerHard ("INIT".data)) r1
  let r3 := subAll (eqBorderMatchAt ("CORE".data)) (openerHard ("CORE".data)) r2
  let r4 := subAll testBorderMatchAt (openerHard ("TEST".data)) r3
  let r5 := subAll (eqBorderMatchAt ("TYPES".data)) (openerHard ("TYPES".data)) r4
  let finalLines := applySectionPass (r5.splitOn '\n')
  newHeader ++ "\n\n".data ++ ['\n'].intercalate finalLines

/-! ## Per-file processing and run loops

The only fallible operations in a file's processing are the read and the
write; the transformations themselves are pure.  A read is modelled as
`Except Unit (List Char)` (`error` = the open/read raised) and a write
by a `Bool` saying whether it would raise. -/

/-- One file as the run sees it: its read outcome and whether writing it
would raise. -/
structure FileCase where
  readRes : Except Unit (List Char)
  writeRaises : Bool

/-- `process_file` as it appears identically in the four standalone
scripts (e.g. `fix_mcs_borders.py` lines 71–89): the whole body is in a
`try`, any exception is reported and turns into a `False` return, and a
write happens only under `if modified`.  Returns
`(returned value, wrote the file)`. -/
def processFile (fix : List Char → List Char × Bool) (fc : FileCase) : Bool × Bool :=
  match fc.readRes with
  | .error _ => (false, false)
  | .ok c =>
    let m := (fix c).2
    if m then
      if fc.writeRaises then (false, false) else (true, true)
    else (false, false)

/-- The `main` loop shared by the four standalone scripts: every file is
processed; the summary is `(modified count, total count)`. -/
def runScript (fix : List Char → List Char × Bool) (files : List FileCase) : Nat × Nat :=
  ((files.map fun fc => (processFile fix fc).1).count true, files.length)

/-- One file as `apply_mcs_fixes.main` sees it: `path.exists()`, then the
unguarded read. -/
structure ApplyCase where
  exists? : Bool
  readRes : Except Unit (List Char)
  path : Line

/-- `apply_mcs_fixes.main` (lines 136–150): a missing file is reported
and skipped, but `apply_mcs_fixes` itself runs with no `try`/`except`,
so a read error escapes the loop and aborts the whole run.  Returns the
contents written, or the escaped exception. -/
def runApplyMain : List ApplyCase → Except Unit (List (List Char))
  | [] => .ok []
  | fc :: fs =>
    if fc.exists? then
      match fc.readRes with
      | .error e => .error e
      | .ok c =>
        match runApplyMain fs with
        | .error e => .error e
        | .ok outs => .ok (applyMcsFixes fc.path c :: outs)
    else runApplyMain fs

/-! ## Derived predicates and concrete inputs used by the claims -/

/-- A line the section loop recognizes as an opener (`findSec` hits). -/
def isOpenerL (l : Line) : Bool :=
  (findSec l).isSome

/-- A closer border line (`// ╚═+╝` with optional trailing blanks), the
shape both inserted closers and `fix_mcs_borders` closers share. -/
def isCloserL (l : Line) : Bool :=
  parseWideCloser '╚' '═' '╝' l

/-- Number of opener lines in a line sequence. -/
def cntO (ls : List Line) : Nat :=
  ls.countP isOpenerL

/-- Number of closer lines in a line sequence. -/
def cntC (ls : List Line) : Nat :=
  ls.countP isCloserL

/-- A canonical docs header line, exactly as `fix_repo_urls` itself
emits it. -/
def docsLine0 : Line :=
  "// docs   : https://fisty.github.io/zig-nfl-clock/docs/a.zig".data

/-- A file content already satisfying the conventions: canonical header
(with the canonical docs line), no border, test or naming violations. -/
def conformant0 : List Char :=
  ("// a.zig — Implementation file\n//\n"
    ++ "// repo   : https://github.com/fisty/zig-nfl-clock\n").data
    ++ docsLine0 ++ ("\n// author : https://github.com/scoomboot\n//\n"
    ++ "// Vibe coded by Scoom.\n\nconst std = @import(\"std\");").data

/-- Input for the header-pass example: a code line, a hard-coded PACK
opener, and a body line. -/
def applyInput0 : List Char :=
  "x\n".data ++ openerHard ("PACK".data) ++ "\ny".data

/-- A path under the fixed project root. -/
def applyPath0 : Line :=
  "/home/fisty/code/zig-nfl-clock/lib/a.zig".data

/-- A minimal main closer border line. -/
def closerLine0 : Line :=
  "// ╚═╝".data

/-- A minimal main opener border line with a two-letter name. -/
def openerLine0 : Line :=
  "// ╔═ AB ═╗".data

/-- A test declaration line whose component is in the lookup table and
which carries an opening brace after the title. -/
def nameLine0 : Line :=
  "test \"u: game_clock: init\" \x7b".data

/-- Line sequence containing one opener and one pre-existing closer. -/
def secInput0 : List Line :=
  [openerHard ("PACK".data), "x".data, [], applyCloser]

/-! ## Scanning toolkit -/

theorem dropPfx_self_append (p r : Line) : dropPfx p (p ++ r) = some r := by
  induction p with
  | nil => rfl
  | cons c cs ih => simp [dropPfx, ih]

theorem dropPfx_eq_some {p l r : Line} : dropPfx p l = some r ↔ l = p ++ r := by
  constructor
  · intro h
    induction p generalizing l with
    | nil => simpa [dropPfx] using h
    | cons c cs ih =>
      cases l with
      | nil => simp [dropPfx] at h
      | cons d ds =>
        simp only [dropPfx] at h
        by_cases hd : d = c
        · subst hd
          simp only [if_pos rfl] at h
          simpa using ih h
        · simp [hd] at h
  · rintro rfl
    exact dropPfx_self_append p r

theorem takeWhile_append_all {p : Char → Bool} {a : Line} (b : Line)
    (ha : ∀ c ∈ a, p c = true) : (a ++ b).takeWhile p = a ++ b.takeWhile p := by
  induction a with
  | nil => simp
  | cons c cs ih =>
    have hc : p c = true := ha c (List.mem_cons_self c cs)
    simp only [List.cons_append, List.takeWhile_cons, hc, if_true]
    rw [ih fun x hx => ha x (List.mem_cons_of_mem c hx)]

theorem dropWhile_append_all {p : Char → Bool} {a : Line} (b : Line)
    (ha : ∀ c ∈ a, p c = true) : (a ++ b).dropWhile p = b.dropWhile p := by
  induction a with
  | nil => simp
  | cons c cs ih =>
    have hc : p c = true := ha c (List.mem_cons_self c cs)
    simp only [List.cons_append, List.dropWhile_cons, hc, if_true]
    exact ih fun x hx => ha x (List.mem_cons_of_mem c hx)

theorem takeWhile_cons_false {p : Char → Bool} {c : Char} (t : Line)
    (h : p c = false) : (c :: t).takeWhile p = [] := by
  simp [List.takeWhile_cons, h]

theorem dropWhile_cons_false {p : Char → Bool} {c : Char} (t : Line)
    (h : p c = false) : (c :: t).dropWhile p = c :: t := by
  simp [List.dropWhile_cons, h]

theorem takeWhile_replicate_head {p : Char → Bool} {f c : Char} {n : Nat} (t : Line)
    (hf : p f = true) (hc : p c = false) :
    (List.replicate n f ++ c :: t).takeWhile p = List.replicate n f := by
  rw [takeWhile_append_all _ fun x hx => by rw [List.eq_of_mem_replicate hx]; exact hf,
    takeWhile_cons_false t hc, List.append_nil]

theorem dropWhile_replicate_head {p : Char → Bool} {f c : Char} {n : Nat} (t : Line)
    (hf : p f = true) (hc : p c = false) :
    (List.replicate n f ++ c :: t).dropWhile p = c :: t := by
  rw [dropWhile_append_all _ fun x hx => by rw [List.eq_of_mem_replicate hx]; exact hf,
    dropWhile_cons_false t hc]

/-! ## splitOn facts -/

theorem splitOnP_mem_pred {p : Char → Bool} :
    ∀ (xs : List Char) (l : Line), l ∈ xs.splitOnP p → ∀ a ∈ l, p a = false := by
  intro xs
  induction xs with
  | nil =>
    intro l hl a ha
    simp [List.splitOnP_nil] at hl
    subst hl
    cases ha
  | cons x xs ih =>
    intro l hl a ha
    rw [List.splitOnP_cons] at hl
    by_cases hx : p x
    · rw [if_pos hx] at hl
      rcases List.mem_cons.1 hl with h | h
      · subst h; cases ha
      · exact ih l h a ha
    · rw [if_neg hx] at hl
      rcases hh : xs.splitOnP p with _ | ⟨hd, tl⟩
      · exact absurd hh (List.splitOnP_ne_nil p xs)
      · rw [hh] at hl
        simp only [List.modifyHead] at hl
        rcases List.mem_cons.1 hl with h | h
        · subst h
          rcases List.mem_cons.1 ha with h | h
          · subst h; exact Bool.eq_false_iff.2 hx
          · exact ih hd (hh ▸ List.mem_cons_self hd tl) a h
        · exact ih l (hh ▸ List.mem_cons_of_mem hd h) a ha

theorem splitOnP_mem_subset {p : Char → Bool} :
    ∀ (xs : List Char) (l : Line), l ∈ xs.splitOnP p → ∀ a ∈ l, a ∈ xs := by
  intro xs
  induction xs with
  | nil =>
    intro l hl a ha
    simp [List.splitOnP_nil] at hl
    subst hl
    cases ha
  | cons x xs ih =>
    intro l hl a ha
    rw [List.splitOnP_cons] at hl
    by_cases hx : p x
    · rw [if_pos hx] at hl
      rcases List.mem_cons.1 hl with h | h
      · subst h; cases ha
      · exact List.mem_cons_of_mem x (ih l h a ha)
    · rw [if_neg hx] at hl
      rcases hh : xs.splitOnP p with _ | ⟨hd, tl⟩
      · exact absurd hh (List.splitOnP_ne_nil p xs)
      · rw [hh] at hl
        simp only [List.modifyHead] at hl
        rcases List.mem_cons.1 hl with h | h
        · subst h
          rcases List.mem_cons.1 ha with h | h
          · subst h; exact List.mem_cons_self a xs
          · exact List.mem_cons_of_mem x (ih hd (hh ▸ List.mem_cons_self hd tl) a h)
        · exact List.mem_cons_of_mem x (ih l (hh ▸ List.mem_cons_of_mem hd h) a ha)

theorem not_mem_of_mem_splitOn {c : Char} {xs : List Char} {l : Line}
    (hl : l ∈ xs.splitOn c) : c ∉ l := by
  intro hc
  have := splitOnP_mem_pred xs l hl c hc
  simp at this

theorem splitOn_lines_ne_nil (c : Char) (xs : List Char) : xs.splitOn c ≠ [] :=
  List.splitOnP_ne_nil _ xs

/-- Rebuild after line-wise transformation: if no produced line contains
the separator, splitting the joined result recovers the mapped lines. -/
theorem splitOn_intercalate_map {c : Char} {xs : List Char} {f : Line → Line}
    (hf : ∀ l ∈ xs.splitOn c, c ∉ f l) :
    ([c].intercalate ((xs.splitOn c).map f)).splitOn c = (xs.splitOn c).map f := by
  apply List.splitOn_intercalate
  · intro l hl
    rcases List.mem_map.1 hl with ⟨m, hm, rfl⟩
    exact hf m hm
  · simp [splitOn_lines_ne_nil c xs]

/-! ## Character-class facts -/

theorem pyWord_ws_false {c : Char} (h : pyWord c = true) : pyWS c = false := by
  by_contra hne
  have hws : pyWS c = true := by revert hne; cases pyWS c <;> simp
  unfold pyWS at hws
  simp only [Bool.or_eq_true, decide_eq_true_iff] at hws
  rcases hws with ((((h1 | h1) | h1) | h1) | h1) | h1 <;> (subst h1; revert h; decide)

theorem toUpper_lower_head {c : Char} (h1 : ('a' ≤ c && c ≤ 'z') = true) :
    lowUnd c.toUpper = false ∧ pyWS c.toUpper = false ∧ c.toUpper ≠ '\n' := by
  have hc : Char.ofNat c.toNat = c := Char.ofNat_toNat c
  rw [Bool.and_eq_true, decide_eq_true_iff, decide_eq_true_iff] at h1
  have hlo : 97 ≤ c.toNat := h1.1
  have hhi : c.toNat ≤ 122 := h1.2
  set m := c.toNat with hmdef
  interval_cases m <;> (rw [← hc]; decide)

theorem toLower_of_lower {c : Char} (h1 : ('a' ≤ c && c ≤ 'z') = true) :
    Char.toLower c = c := by
  rw [Bool.and_eq_true, decide_eq_true_iff, decide_eq_true_iff] at h1
  have hlo : 97 ≤ c.toNat := h1.1
  have h2 : ¬(65 ≤ c.toNat ∧ c.toNat ≤ 90) := by omega
  simp [Char.toLower, h2]

theorem lower_ne_newline {c : Char} (h1 : ('a' ≤ c && c ≤ 'z') = true) : c ≠ '\n' := by
  rintro rfl
  revert h1
  decide

/-! ## More append-scanning lemmas -/

theorem dropWhile_append_ne_nil {p : Char → Bool} {a : Line} (b : Line)
    (h : a.dropWhile p ≠ []) : (a ++ b).dropWhile p = a.dropWhile p ++ b := by
  induction a with
  | nil => simp at h
  | cons c cs ih =>
    by_cases hc : p c
    · rw [List.cons_append, List.dropWhile_cons, if_pos hc, List.dropWhile_cons, if_pos hc]
      exact ih (by rwa [List.dropWhile_cons, if_pos hc] at h)
    · rw [List.cons_append, List.dropWhile_cons, if_neg hc, List.dropWhile_cons, if_neg hc,
        List.cons_append]

theorem takeWhile_append_ne_nil {p : Char → Bool} {a : Line} (b : Line)
    (h : a.dropWhile p ≠ []) : (a ++ b).takeWhile p = a.takeWhile p := by
  induction a with
  | nil => simp at h
  | cons c cs ih =>
    by_cases hc : p c
    · rw [List.cons_append, List.takeWhile_cons, if_pos hc, List.takeWhile_cons, if_pos hc]
      rw [ih (by rwa [List.dropWhile_cons, if_pos hc] at h)]
    · rw [List.cons_append, List.takeWhile_cons, if_neg hc, List.takeWhile_cons, if_neg hc]

theorem dropWhile_eq_nil_all {p : Char → Bool} {a : Line}
    (h : a.dropWhile p = []) : ∀ c ∈ a, p c = true := by
  intro c hc
  induction a with
  | nil => cases hc
  | cons d ds ih =>
    by_cases hd : p d
    · rcases List.mem_cons.1 hc with rfl | hmem
      · exact hd
      · exact ih (by rwa [List.dropWhile_cons, if_pos hd] at h) hmem
    · rw [List.dropWhile_cons, if_neg hd] at h
      cases h

/-! ## pascalize facts -/

theorem pascalize_parts_head {parts : List Line}
    (hp : ∀ pc ∈ parts, ∀ c ∈ pc, ('a' ≤ c && c ≤ 'z') = true) :
    ((parts.map pyCapitalize).flatten = []) ∨
      ∃ d rest, (parts.map pyCapitalize).flatten = d :: rest ∧
        lowUnd d = false ∧ pyWS d = false := by
  induction parts with
  | nil => exact Or.inl rfl
  | cons pc ps ih =>
    have hps : ∀ q ∈ ps, ∀ c ∈ q, ('a' ≤ c && c ≤ 'z') = true :=
      fun q hq c hc => hp q (List.mem_cons_of_mem pc hq) c hc
    cases pc with
    | nil => simpa [pyCapitalize] using ih hps
    | cons c cs =>
      right
      have hrange := hp (c :: cs) (List.mem_cons_self _ _) c (List.mem_cons_self c cs)
      exact ⟨c.toUpper, cs.map Char.toLower ++ (ps.map pyCapitalize).flatten,
        by simp [pyCapitalize], (toUpper_lower_head hrange).1, (toUpper_lower_head hrange).2.1⟩

theorem splitOn_und_range {comp : Line} (h : ∀ c ∈ comp, lowUnd c = true) :
    ∀ pc ∈ comp.splitOn '_', ∀ c ∈ pc, ('a' ≤ c && c ≤ 'z') = true := by
  intro pc hpc c hc
  have hsub : c ∈ comp := splitOnP_mem_subset comp pc hpc c hc
  have hne : (c == '_') = false := splitOnP_mem_pred comp pc hpc c hc
  have hlow := h c hsub
  unfold lowUnd at hlow
  rw [Bool.or_eq_true] at hlow
  rcases hlow with hr | he
  · exact hr
  · rw [decide_eq_true_iff] at he
    rw [he] at hne
    simp at hne

theorem pascalize_head {comp : Line} (h : ∀ c ∈ comp, lowUnd c = true) :
    pascalize comp = [] ∨ ∃ d rest, pascalize comp = d :: rest ∧
      lowUnd d = false ∧ pyWS d = false := by
  unfold pascalize
  cases hfind : specialCases.find? (fun p => decide (p.1 = comp)) with
  | some pr =>
    have hmem := List.mem_of_find?_eq_some hfind
    change pr.2 = [] ∨ ∃ d rest, pr.2 = d :: rest ∧ lowUnd d = false ∧ pyWS d = false
    fin_cases hmem <;> exact Or.inr ⟨_, _, rfl, by decide, by decide⟩
  | none => exact pascalize_parts_head (splitOn_und_range h)

theorem pascalize_no_newline {comp : Line} (h : ∀ c ∈ comp, lowUnd c = true) :
    '\n' ∉ pascalize comp := by
  unfold pascalize
  cases hfind : specialCases.find? (fun p => decide (p.1 = comp)) with
  | some pr =>
    have hmem := List.mem_of_find?_eq_some hfind
    change '\n' ∉ pr.2
    fin_cases hmem <;> decide
  | none =>
    intro hmem
    rw [List.mem_flatten] at hmem
    obtain ⟨s, hs, hcs⟩ := hmem
    rcases List.mem_map.1 hs with ⟨pc, hpc, rfl⟩
    have hrange := splitOn_und_range h pc hpc
    cases pc with
    | nil => cases hcs
    | cons c cs =>
      have hcs2 : '\n' = c.toUpper ∨ ∃ a ∈ cs, a.toLower = '\n' := by
        simpa [pyCapitalize] using hcs
      rcases hcs2 with heq | ⟨x, hx, hxe⟩
      · exact (toUpper_lower_head (hrange c (List.mem_cons_self c cs))).2.2 heq.symm
      · have hxr := hrange x (List.mem_cons_of_mem c hx)
        rw [toLower_of_lower hxr] at hxe
        exact lower_ne_newline hxr hxe

/-! ## parseNameLine extraction -/

theorem dropPfx_sublist {p l r : Line} (h : dropPfx p l = some r) : List.Sublist r l := by
  rw [dropPfx_eq_some] at h
  subst h
  exact List.sublist_append_right p r

theorem parseNameLine_spec {l ind cat comp desc : Line}
    (h : parseNameLine l = some (ind, cat, comp, desc)) :
    (∀ c ∈ ind, pyWS c = true) ∧ cat ≠ [] ∧ (∀ c ∈ cat, c ≠ ':') ∧
    comp ≠ [] ∧ (∀ c ∈ comp, lowUnd c = true) ∧
    (∀ c ∈ ind, c ∈ l) ∧ (∀ c ∈ cat, c ∈ l) ∧ (∀ c ∈ desc, c ∈ l) := by
  simp only [parseNameLine] at h
  split at h
  · exact Option.noConfusion h
  rename_i r1 heq1
  split at h
  · exact Option.noConfusion h
  rename_i hw
  split at h
  · exact Option.noConfusion h
  rename_i r3 heq2
  split at h
  · exact Option.noConfusion h
  rename_i hcat0
  split at h
  · exact Option.noConfusion h
  rename_i r5 heq3
  split at h
  · exact Option.noConfusion h
  rename_i hw2
  split at h
  · exact Option.noConfusion h
  rename_i hcomp0
  split at h
  · exact Option.noConfusion h
  rename_i r8 heq4
  split at h
  · exact Option.noConfusion h
  rename_i hw0
  split at h
  · exact Option.noConfusion h
  rename_i q heq5
  split at h
  · exact Option.noConfusion h
  rename_i hq
  simp only [Option.some.injEq, Prod.mk.injEq] at h
  obtain ⟨e1, e2, e3, e4⟩ := h
  subst e1; subst e2; subst e3; subst e4
  have hr1l : List.Sublist r1 l :=
    (dropPfx_sublist heq1).trans (List.dropWhile_sublist pyWS)
  have hr3l : List.Sublist r3 l :=
    ((dropPfx_sublist heq2).trans (List.dropWhile_sublist pyWS)).trans hr1l
  have hr5l : List.Sublist r5 l :=
    ((dropPfx_sublist heq3).trans (List.dropWhile_sublist (· ≠ ':'))).trans hr3l
  have hr8l : List.Sublist r8 l :=
    ((dropPfx_sublist heq4).trans (List.dropWhile_sublist lowUnd)).trans
      ((List.dropWhile_sublist pyWS).trans hr5l)
  refine ⟨fun c hc => List.mem_takeWhile_imp hc, hcat0,
    fun c hc => ?_, hcomp0,
    fun c hc => List.mem_takeWhile_imp hc,
    fun c hc => (List.takeWhile_sublist pyWS).mem hc,
    fun c hc => hr3l.mem ((List.takeWhile_sublist _).mem hc),
    fun c hc => hr8l.mem (((List.take_sublist _ _).trans (List.drop_sublist _ _)).mem hc)⟩
  have := List.mem_takeWhile_imp hc
  simpa using this

/-- The rebuilt test-name line never matches the pattern again: at the
component position it now carries the pascalized token, whose head is
neither `[a-z_]` nor whitespace (or it is empty and a `:` sits there). -/
theorem parseNameLine_rebuilt {ind cat P tail : Line}
    (hind : ∀ c ∈ ind, pyWS c = true)
    (hcat : ∀ c ∈ cat, c ≠ ':')
    (hP : P = [] ∨ ∃ d rest, P = d :: rest ∧ lowUnd d = false ∧ pyWS d = false) :
    parseNameLine (ind ++ 't' :: 'e' :: 's' :: 't' :: ' ' :: '"' ::
      (cat ++ ':' :: ' ' :: (P ++ ':' :: ' ' :: tail))) = none := by
  have e2 : ∀ x : Line, dropPfx ['t', 'e', 's', 't'] ('t' :: 'e' :: 's' :: 't' :: x) = some x :=
    fun x => rfl
  have e3 : ∀ x : Line, List.takeWhile pyWS (' ' :: '"' :: x) = [' '] := fun x => rfl
  have e4 : ∀ x : Line, List.dropWhile pyWS (' ' :: '"' :: x) = '"' :: x := fun x => rfl
  have e5 : ∀ x : Line, dropPfx ['"'] ('"' :: x) = some x := fun x => rfl
  have e8 : ∀ x : Line, dropPfx [':'] (':' :: x) = some x := fun x => rfl
  have eifF : ∀ x y : Option (Line × Line × Line × Line),
      (if ([' '] : Line) = [] then x else y) = y := fun x y => if_neg (by simp)
  have eifT : ∀ x y : Option (Line × Line × Line × Line),
      (if ([] : Line) = [] then x else y) = x := fun x y => if_pos rfl
  rcases hP with rfl | ⟨d, rest, rfl, hd1, hd2⟩
  · have e1 : (ind ++ 't' :: 'e' :: 's' :: 't' :: ' ' :: '"' ::
        (cat ++ ':' :: ' ' :: ':' :: ' ' :: tail)).dropWhile pyWS
        = 't' :: 'e' :: 's' :: 't' :: ' ' :: '"' ::
          (cat ++ ':' :: ' ' :: ':' :: ' ' :: tail) := by
      rw [dropWhile_append_all _ hind, dropWhile_cons_false _ (by decide)]
    have e6 : (cat ++ ':' :: ' ' :: ':' :: ' ' :: tail).takeWhile (· ≠ ':') = cat := by
      rw [takeWhile_append_all _ fun c hc => decide_eq_true (hcat c hc),
        takeWhile_cons_false _ (by decide), List.append_nil]
    have e7 : (cat ++ ':' :: ' ' :: ':' :: ' ' :: tail).dropWhile (· ≠ ':')
        = ':' :: ' ' :: ':' :: ' ' :: tail := by
      rw [dropWhile_append_all _ fun c hc => decide_eq_true (hcat c hc),
        dropWhile_cons_false _ (by decide)]
    have e9 : ∀ x : Line, List.takeWhile pyWS (' ' :: ':' :: x) = [' '] := fun x => rfl
    have e10 : ∀ x : Line, List.dropWhile pyWS (' ' :: ':' :: x) = ':' :: x := fun x => rfl
    have e11 : ∀ x : Line, List.takeWhile lowUnd (':' :: x) = [] := fun x => rfl
    simp only [parseNameLine, List.nil_append, e1, e2, e3, e4, e5, e6, e7, e8, e9, e10, e11,
      eifF, eifT, if_true, ite_self]
  · have e1 : (ind ++ 't' :: 'e' :: 's' :: 't' :: ' ' :: '"' ::
        (cat ++ ':' :: ' ' :: d :: (rest ++ ':' :: ' ' :: tail))).dropWhile pyWS
        = 't' :: 'e' :: 's' :: 't' :: ' ' :: '"' ::
          (cat ++ ':' :: ' ' :: d :: (rest ++ ':' :: ' ' :: tail)) := by
      rw [dropWhile_append_all _ hind, dropWhile_cons_false _ (by decide)]
    have e6 : (cat ++ ':' :: ' ' :: d :: (rest ++ ':' :: ' ' :: tail)).takeWhile (· ≠ ':')
        = cat := by
      rw [takeWhile_append_all _ fun c hc => decide_eq_true (hcat c hc),
        takeWhile_cons_false _ (by decide), List.append_nil]
    have e7 : (cat ++ ':' :: ' ' :: d :: (rest ++ ':' :: ' ' :: tail)).dropWhile (· ≠ ':')
        = ':' :: ' ' :: d :: (rest ++ ':' :: ' ' :: tail) := by
      rw [dropWhile_append_all _ fun c hc => decide_eq_true (hcat c hc),
        dropWhile_cons_false _ (by decide)]
    have e9 : List.takeWhile pyWS (' ' :: d :: (rest ++ ':' :: ' ' :: tail)) = [' '] := by
      rw [List.takeWhile_cons, if_pos (by decide), takeWhile_cons_false _ hd2]
    have e10 : List.dropWhile pyWS (' ' :: d :: (rest ++ ':' :: ' ' :: tail))
        = d :: (rest ++ ':' :: ' ' :: tail) := by
      rw [List.dropWhile_cons, if_pos (by decide), dropWhile_cons_false _ hd2]
    have e11 : List.takeWhile lowUnd (d :: (rest ++ ':' :: ' ' :: tail)) = [] :=
      takeWhile_cons_false _ hd1
    simp only [parseNameLine, List.cons_append, e1, e2, e3, e4, e5, e6, e7, e8, e9, e10, e11,
      eifF, eifT, if_true, ite_self]

/-- The line rebuilt by `fix_test_names` in normalized cons form. -/
theorem fixNameLine_rebuild_eq {ind cat comp desc : Line} :
    ind ++ "test \"".data ++ cat ++ [':', ' '] ++ pascalize comp ++ [':', ' ']
        ++ desc ++ ['"']
      = ind ++ 't' :: 'e' :: 's' :: 't' :: ' ' :: '"' ::
        (cat ++ ':' :: ' ' :: (pascalize comp ++ ':' :: ' ' :: (desc ++ ['"']))) := by
  simp [List.append_assoc]

theorem fixNameLine_eq_rebuilt {l ind cat comp desc : Line}
    (hp : parseNameLine l = some (ind, cat, comp, desc)) (h : pascalize comp ≠ comp) :
    fixNameLine l = ind ++ "test \"".data ++ cat ++ [':', ' '] ++ pascalize comp
      ++ [':', ' '] ++ desc ++ ['"'] := by
  simp only [fixNameLine, hp]
  rw [if_pos h]

theorem fixNameLine_eq_self {l ind cat comp desc : Line}
    (hp : parseNameLine l = some (ind, cat, comp, desc)) (h : ¬pascalize comp ≠ comp) :
    fixNameLine l = l := by
  simp only [fixNameLine, hp]
  rw [if_neg h]

theorem parseNameLine_rebuilt_none {l ind cat comp desc : Line}
    (h : parseNameLine l = some (ind, cat, comp, desc)) :
    parseNameLine (ind ++ "test \"".data ++ cat ++ [':', ' '] ++ pascalize comp
      ++ [':', ' '] ++ desc ++ ['"']) = none := by
  obtain ⟨hind, _, hcat, _, hcomp, _, _, _⟩ := parseNameLine_spec h
  rw [fixNameLine_rebuild_eq]
  exact parseNameLine_rebuilt hind hcat (pascalize_head hcomp)

theorem fixNameLine_ne_of_flag {l : Line} (h : nameFlag l = true) : fixNameLine l ≠ l := by
  unfold nameFlag at h
  cases hp : parseNameLine l with
  | none => rw [hp] at h; cases h
  | some t =>
    obtain ⟨ind, cat, comp, desc⟩ := t
    rw [hp] at h
    rw [decide_eq_true_iff] at h
    intro heq
    have hfix := fixNameLine_eq_rebuilt hp h
    rw [heq] at hfix
    have := parseNameLine_rebuilt_none hp
    rw [← hfix, hp] at this
    cases this

theorem fixNameLine_eq_of_not_flag {l : Line} (h : nameFlag l = false) :
    fixNameLine l = l := by
  unfold nameFlag at h
  cases hp : parseNameLine l with
  | none => simp only [fixNameLine, hp]
  | some t =>
    obtain ⟨ind, cat, comp, desc⟩ := t
    rw [hp] at h
    rw [decide_eq_false_iff_not] at h
    exact fixNameLine_eq_self hp h

theorem nameFlag_iff {l : Line} : nameFlag l = true ↔ fixNameLine l ≠ l := by
  constructor
  · exact fixNameLine_ne_of_flag
  · intro hne
    cases hf : nameFlag l with
    | true => rfl
    | false => exact absurd (fixNameLine_eq_of_not_flag hf) hne

theorem fixNameLine_idem (l : Line) : fixNameLine (fixNameLine l) = fixNameLine l := by
  cases hf : nameFlag l with
  | false => rw [fixNameLine_eq_of_not_flag hf, fixNameLine_eq_of_not_flag hf]
  | true =>
    unfold nameFlag at hf
    cases hp : parseNameLine l with
    | none => rw [hp] at hf; cases hf
    | some t =>
      obtain ⟨ind, cat, comp, desc⟩ := t
      rw [hp] at hf
      rw [decide_eq_true_iff] at hf
      rw [fixNameLine_eq_rebuilt hp hf]
      simp only [fixNameLine, parseNameLine_rebuilt_none hp]

theorem fixNameLine_no_newline {l : Line} (hl : '\n' ∉ l) : '\n' ∉ fixNameLine l := by
  cases hf : nameFlag l with
  | false => rw [fixNameLine_eq_of_not_flag hf]; exact hl
  | true =>
    unfold nameFlag at hf
    cases hp : parseNameLine l with
    | none => rw [hp] at hf; cases hf
    | some t =>
      obtain ⟨ind, cat, comp, desc⟩ := t
      rw [hp] at hf
      rw [decide_eq_true_iff] at hf
      obtain ⟨_, _, _, _, hcomp, hindl, hcatl, hdescl⟩ := parseNameLine_spec hp
      rw [fixNameLine_eq_rebuilt hp hf]
      intro hmem
      simp only [List.mem_append, List.mem_cons, List.mem_singleton] at hmem
      rcases hmem with ((((((hm | hm) | hm) | hm) | hm) | hm) | hm) | hm
      · exact hl (hindl _ hm)
      · revert hm; decide
      · exact hl (hcatl _ hm)
      · revert hm; decide
      · exact pascalize_no_newline hcomp hm
      · revert hm; decide
      · exact hl (hdescl _ hm)
      · revert hm; decide

/-! ## fix_test_braces facts -/

theorem parseBraceLine_spec {l : Line} (h : parseBraceLine l = true) :
    ∃ w1 w2 mid w3 : Line,
      l = w1 ++ 't' :: 'e' :: 's' :: 't' :: (w2 ++ '"' :: (mid ++ '"' :: w3)) ∧
      (∀ c ∈ w1, pyWS c = true) ∧ w2 ≠ [] ∧ (∀ c ∈ w2, pyWS c = true) ∧
      mid ≠ [] ∧ (∀ c ∈ mid, c ≠ '"') ∧ (∀ c ∈ w3, pyWS c = true) := by
  simp only [parseBraceLine] at h
  split at h
  · exact Bool.noConfusion h
  rename_i r1 heq1
  split at h
  · exact Bool.noConfusion h
  rename_i hw
  split at h
  · exact Bool.noConfusion h
  rename_i r3 heq2
  split at h
  · exact Bool.noConfusion h
  rename_i hmid
  split at h
  · exact Bool.noConfusion h
  rename_i r5 heq3
  rw [decide_eq_true_iff] at h
  have d1 : l = l.takeWhile pyWS ++ l.dropWhile pyWS :=
    (List.takeWhile_append_dropWhile pyWS l).symm
  have d2 : l.dropWhile pyWS = 't' :: 'e' :: 's' :: 't' :: r1 := dropPfx_eq_some.1 heq1
  have d3 : r1 = r1.takeWhile pyWS ++ r1.dropWhile pyWS :=
    (List.takeWhile_append_dropWhile pyWS r1).symm
  have d4 : r1.dropWhile pyWS = '"' :: r3 := dropPfx_eq_some.1 heq2
  have d5 : r3 = r3.takeWhile (· ≠ '"') ++ r3.dropWhile (· ≠ '"') :=
    (List.takeWhile_append_dropWhile _ r3).symm
  have d6 : r3.dropWhile (· ≠ '"') = '"' :: r5 := dropPfx_eq_some.1 heq3
  have hdec : l = l.takeWhile pyWS ++ 't' :: 'e' :: 's' :: 't' ::
      (r1.takeWhile pyWS ++ '"' :: (r3.takeWhile (· ≠ '"') ++ '"' :: r5)) := by
    conv_lhs => rw [d1, d2, d3, d4, d5, d6]
  exact ⟨l.takeWhile pyWS, r1.takeWhile pyWS, r3.takeWhile (· ≠ '"'), r5, hdec,
    fun c hc => List.mem_takeWhile_imp hc, hw,
    fun c hc => List.mem_takeWhile_imp hc, hmid,
    fun c hc => by simpa using List.mem_takeWhile_imp hc,
    dropWhile_eq_nil_all h⟩

theorem parseBraceLine_rebuilt {w1 w2 mid w3 : Line}
    (h1 : ∀ c ∈ w1, pyWS c = true) (h2n : w2 ≠ []) (h2 : ∀ c ∈ w2, pyWS c = true)
    (hmn : mid ≠ []) (hm : ∀ c ∈ mid, c ≠ '"') (h3 : ∀ c ∈ w3, pyWS c = true) :
    parseBraceLine (w1 ++ 't' :: 'e' :: 's' :: 't' ::
      (w2 ++ '"' :: (mid ++ '"' :: (w3 ++ [' ', '\x7b'])))) = false := by
  have e1 : (w1 ++ 't' :: 'e' :: 's' :: 't' ::
      (w2 ++ '"' :: (mid ++ '"' :: (w3 ++ [' ', '\x7b'])))).dropWhile pyWS
      = 't' :: 'e' :: 's' :: 't' :: (w2 ++ '"' :: (mid ++ '"' :: (w3 ++ [' ', '\x7b']))) := by
    rw [dropWhile_append_all _ h1, dropWhile_cons_false _ (by decide)]
  have e2 : ∀ x : Line, dropPfx ['t', 'e', 's', 't'] ('t' :: 'e' :: 's' :: 't' :: x) = some x :=
    fun x => rfl
  have e3 : (w2 ++ '"' :: (mid ++ '"' :: (w3 ++ [' ', '\x7b']))).takeWhile pyWS = w2 := by
    rw [takeWhile_append_all _ h2, takeWhile_cons_false _ (by decide), List.append_nil]
  have e4 : (w2 ++ '"' :: (mid ++ '"' :: (w3 ++ [' ', '\x7b']))).dropWhile pyWS
      = '"' :: (mid ++ '"' :: (w3 ++ [' ', '\x7b'])) := by
    rw [dropWhile_append_all _ h2, dropWhile_cons_false _ (by decide)]
  have e5 : ∀ x : Line, dropPfx ['"'] ('"' :: x) = some x := fun x => rfl
  have e6 : (mid ++ '"' :: (w3 ++ [' ', '\x7b'])).takeWhile (· ≠ '"') = mid := by
    rw [takeWhile_append_all _ fun c hc => decide_eq_true (hm c hc),
      takeWhile_cons_false _ (by decide), List.append_nil]
  have e7 : (mid ++ '"' :: (w3 ++ [' ', '\x7b'])).dropWhile (· ≠ '"')
      = '"' :: (w3 ++ [' ', '\x7b']) := by
    rw [dropWhile_append_all _ fun c hc => decide_eq_true (hm c hc),
      dropWhile_cons_false _ (by decide)]
  have e8 : (w3 ++ [' ', '\x7b']).dropWhile pyWS = ['\x7b'] := by
    rw [dropWhile_append_all _ h3]
    rfl
  simp only [parseBraceLine, e1, e2, e3, e4, e5, e6, e7, e8, if_neg h2n, if_neg hmn]
  simp

theorem fixBraceLine_of_parse {l : Line} (h : parseBraceLine l = true) :
    fixBraceLine l = l ++ [' ', '\x7b'] := by
  unfold fixBraceLine
  rw [if_pos h]

theorem fixBraceLine_of_not_parse {l : Line} (h : parseBraceLine l = false) :
    fixBraceLine l = l := by
  unfold fixBraceLine
  rw [h]
  simp

theorem braceFlag_iff {l : Line} : parseBraceLine l = true ↔ fixBraceLine l ≠ l := by
  constructor
  · intro h heq
    rw [fixBraceLine_of_parse h] at heq
    have := congrArg List.length heq
    simp at this
  · intro hne
    cases hf : parseBraceLine l with
    | true => rfl
    | false => exact absurd (fixBraceLine_of_not_parse hf) hne

theorem fixBraceLine_idem (l : Line) : fixBraceLine (fixBraceLine l) = fixBraceLine l := by
  cases hf : parseBraceLine l with
  | false => rw [fixBraceLine_of_not_parse hf, fixBraceLine_of_not_parse hf]
  | true =>
    rw [fixBraceLine_of_parse hf]
    obtain ⟨w1, w2, mid, w3, hdec, p1, p2n, p2, pmn, pm, p3⟩ := parseBraceLine_spec hf
    have hra : l ++ [' ', '\x7b'] = w1 ++ 't' :: 'e' :: 's' :: 't' ::
        (w2 ++ '"' :: (mid ++ '"' :: (w3 ++ [' ', '\x7b']))) := by
      rw [hdec]
      simp [List.append_assoc]
    rw [hra]
    exact fixBraceLine_of_not_parse (parseBraceLine_rebuilt p1 p2n p2 pmn pm p3)

theorem fixBraceLine_no_newline {l : Line} (hl : '\n' ∉ l) : '\n' ∉ fixBraceLine l := by
  cases hf : parseBraceLine l with
  | false => rw [fixBraceLine_of_not_parse hf]; exact hl
  | true =>
    rw [fixBraceLine_of_parse hf]
    intro hmem
    rcases List.mem_append.1 hmem with hm | hm
    · exact hl hm
    · revert hm; decide

/-! ## fix_mcs_borders facts -/

theorem fdiv_two (t : Int) : Int.fdiv t 2 = t / 2 :=
  Int.fdiv_eq_ediv t (by decide)

theorem parseWideOpener_name {lg fill rg : Char} {l nm : Line}
    (h : parseWideOpener lg fill rg l = some nm) :
    nm ≠ [] ∧ ∀ c ∈ nm, pyWord c = true := by
  simp only [parseWideOpener] at h
  split at h
  · exact Option.noConfusion h
  rename_i r0 heq0
  split at h
  · exact Option.noConfusion h
  rename_i hf1
  split at h
  · exact Option.noConfusion h
  rename_i hw1
  split at h
  · exact Option.noConfusion h
  rename_i hnm
  split at h
  · exact Option.noConfusion h
  rename_i hw2
  split at h
  · exact Option.noConfusion h
  rename_i hf2
  split at h
  · exact Option.noConfusion h
  rename_i r6 heq6
  split at h
  · injection h with h2
    subst h2
    exact ⟨hnm, fun c hc => List.mem_takeWhile_imp hc⟩
  · exact Option.noConfusion h

/-- For names of length at most 81 the dead `len != 88` branch is not
taken and the opener is the canonical split. -/
theorem mkOpener_eq_canonical {lg fill rg : Char} {nm : Line} (h : nm.length ≤ 81) :
    mkOpener lg fill rg nm
      = ['/', '/', ' ', lg] ++ List.replicate ((81 - nm.length) / 2) fill ++ ' ' ::
        (nm ++ ' ' :: (List.replicate (81 - nm.length - (81 - nm.length) / 2) fill
          ++ [rg])) := by
  have h1 : (Int.fdiv (88 - (4 + (nm.length : Int) + 1 + 2)) 2).toNat
      = (81 - nm.length) / 2 := by
    rw [fdiv_two]; omega
  have h2 : ((88 - (4 + (nm.length : Int) + 1 + 2))
      - Int.fdiv (88 - (4 + (nm.length : Int) + 1 + 2)) 2).toNat
      = 81 - nm.length - (81 - nm.length) / 2 := by
    rw [fdiv_two]; omega
  simp only [mkOpener, h1, h2]
  have hcond : ¬((['/', '/', ' ', lg] ++ List.replicate ((81 - nm.length) / 2) fill
      ++ [' '] ++ nm ++ [' ']
      ++ List.replicate (81 - nm.length - (81 - nm.length) / 2) fill ++ [rg]).length
      ≠ 88) := by
    simp only [List.length_append, List.length_replicate, List.length_cons,
      List.length_nil]
    omega
  rw [if_neg hcond]
  simp [List.append_assoc]

/-- For names of length at least 80 the emitted opener has an empty left
fill run: the character right after the corner glyph is the space. -/
theorem mkOpener_left_space {lg fill rg : Char} {nm : Line} (h : 80 ≤ nm.length) :
    ∃ rest, mkOpener lg fill rg nm = ['/', '/', ' ', lg] ++ ' ' :: rest := by
  by_cases hle : nm.length ≤ 81
  · have ha : (81 - nm.length) / 2 = 0 := by omega
    refine ⟨nm ++ ' ' :: (List.replicate (81 - nm.length - (81 - nm.length) / 2) fill
      ++ [rg]), ?_⟩
    rw [mkOpener_eq_canonical hle, ha]
    simp
  · have h1 : (Int.fdiv (88 - (4 + (nm.length : Int) + 1 + 2)) 2).toNat = 0 := by
      rw [fdiv_two]; omega
    have h2 : ((88 - (4 + (nm.length : Int) + 1 + 2))
        - Int.fdiv (88 - (4 + (nm.length : Int) + 1 + 2)) 2).toNat = 0 := by
      rw [fdiv_two]; omega
    simp only [mkOpener, h1, h2]
    have hlen : (['/', '/', ' ', lg] ++ List.replicate 0 fill ++ [' '] ++ nm ++ [' ']
        ++ List.replicate 0 fill ++ [rg]).length = 7 + nm.length := by
      simp [List.length_append]
      omega
    have hcond : (['/', '/', ' ', lg] ++ List.replicate 0 fill ++ [' '] ++ nm ++ [' ']
        ++ List.replicate 0 fill ++ [rg]).length ≠ 88 := by
      rw [hlen]; omega
    rw [if_pos hcond]
    have h3 : (Int.fdiv (88 - (4 + (nm.length : Int) + 1 + 2)) 2
        + (88 - ((['/', '/', ' ', lg] ++ List.replicate 0 fill ++ [' '] ++ nm ++ [' ']
          ++ List.replicate 0 fill ++ [rg]).length : Int))).toNat = 0 := by
      rw [fdiv_two, hlen]
      push_cast
      omega
    rw [h3]
    refine ⟨nm ++ [' ', rg], ?_⟩
    simp

theorem parseWideOpener_none_glyph {lg fill rg x : Char} (hx : x ≠ lg) (r : Line) :
    parseWideOpener lg fill rg (['/', '/', ' ', x] ++ r) = none := by
  simp only [parseWideOpener, dropPfx, if_pos rfl, if_neg hx, if_true]

theorem parseWideCloser_none_glyph {lg fill rg x : Char} (hx : x ≠ lg) (r : Line) :
    parseWideCloser lg fill rg (['/', '/', ' ', x] ++ r) = false := by
  simp only [parseWideCloser, dropPfx, if_pos rfl, if_neg hx, if_true]

theorem parseWideOpener_none_space {lg fill rg : Char} (hsf : (' ' : Char) ≠ fill)
    (rest : Line) :
    parseWideOpener lg fill rg (['/', '/', ' ', lg] ++ ' ' :: rest) = none := by
  have e0 : dropPfx ['/', '/', ' ', lg] (['/', '/', ' ', lg] ++ ' ' :: rest)
      = some (' ' :: rest) := dropPfx_self_append _ _
  have e1 : (' ' :: rest).takeWhile (· = fill) = [] :=
    takeWhile_cons_false _ (by simp [hsf])
  simp only [parseWideOpener, e0, e1, if_pos rfl, if_true]

theorem parseWideCloser_none_space {lg fill rg : Char} (hsf : (' ' : Char) ≠ fill)
    (rest : Line) :
    parseWideCloser lg fill rg (['/', '/', ' ', lg] ++ ' ' :: rest) = false := by
  have e0 : dropPfx ['/', '/', ' ', lg] (['/', '/', ' ', lg] ++ ' ' :: rest)
      = some (' ' :: rest) := dropPfx_self_append _ _
  have e1 : (' ' :: rest).takeWhile (· = fill) = [] :=
    takeWhile_cons_false _ (by simp [hsf])
  simp only [parseWideCloser, e0, e1, if_pos rfl, if_true]

/-- Re-scanning a canonical opener line recovers exactly the name. -/
theorem parseWideOpener_canonical {lg fill rg : Char} {nm : Line} {a b : Nat}
    (ha : 1 ≤ a) (hb : 1 ≤ b) (hnm : nm ≠ []) (hword : ∀ c ∈ nm, pyWord c = true)
    (hsf : (' ' : Char) ≠ fill) (hwf : pyWS fill = false) (hrf : rg ≠ fill) :
    parseWideOpener lg fill rg (['/', '/', ' ', lg] ++
      (List.replicate a fill ++ ' ' :: (nm ++ ' ' :: (List.replicate b fill ++ [rg]))))
      = some nm := by
  obtain ⟨c, cs, rfl⟩ : ∃ c cs, nm = c :: cs := by
    cases nm with
    | nil => exact absurd rfl hnm
    | cons c cs => exact ⟨c, cs, rfl⟩
  have hfillP : (fun x => decide (x = fill)) fill = true := by simp
  have hspP : (fun x => decide (x = fill)) ' ' = false := by simp [hsf]
  have hrgP : (fun x => decide (x = fill)) rg = false := by simp [hrf]
  have e0 : dropPfx ['/', '/', ' ', lg] (['/', '/', ' ', lg] ++
      (List.replicate a fill ++ ' ' :: (c :: cs ++ ' ' :: (List.replicate b fill ++ [rg]))))
      = some (List.replicate a fill ++ ' ' ::
        (c :: cs ++ ' ' :: (List.replicate b fill ++ [rg]))) := dropPfx_self_append _ _
  have e1 : (List.replicate a fill ++ ' ' ::
      (c :: cs ++ ' ' :: (List.replicate b fill ++ [rg]))).takeWhile (· = fill)
      = List.replicate a fill := takeWhile_replicate_head _ hfillP hspP
  have e2 : (List.replicate a fill ++ ' ' ::
      (c :: cs ++ ' ' :: (List.replicate b fill ++ [rg]))).dropWhile (· = fill)
      = ' ' :: (c :: cs ++ ' ' :: (List.replicate b fill ++ [rg])) :=
    dropWhile_replicate_head _ hfillP hspP
  have hcw : pyWS c = false := pyWord_ws_false (hword c (List.mem_cons_self c cs))
  have e3 : (' ' :: (c :: cs ++ ' ' :: (List.replicate b fill ++ [rg]))).takeWhile pyWS
      = [' '] := by
    rw [List.takeWhile_cons, if_pos (by decide), List.cons_append,
      takeWhile_cons_false _ hcw]
  have e4 : (' ' :: (c :: cs ++ ' ' :: (List.replicate b fill ++ [rg]))).dropWhile pyWS
      = c :: (cs ++ ' ' :: (List.replicate b fill ++ [rg])) := by
    rw [List.dropWhile_cons, if_pos (by decide), List.cons_append,
      dropWhile_cons_false _ hcw]
  have e5 : (c :: (cs ++ ' ' :: (List.replicate b fill ++ [rg]))).takeWhile pyWord
      = c :: cs := by
    rw [List.takeWhile_cons, if_pos (hword c (List.mem_cons_self c cs)),
      takeWhile_append_all _ fun x hx => hword x (List.mem_cons_of_mem c hx),
      takeWhile_cons_false _ (by decide), List.append_nil]
  have e6 : (c :: (cs ++ ' ' :: (List.replicate b fill ++ [rg]))).dropWhile pyWord
      = ' ' :: (List.replicate b fill ++ [rg]) := by
    rw [List.dropWhile_cons, if_pos (hword c (List.mem_cons_self c cs)),
      dropWhile_append_all _ fun x hx => hword x (List.mem_cons_of_mem c hx),
      dropWhile_cons_false _ (by decide)]
  obtain ⟨b1, rfl⟩ : ∃ b1, b = b1 + 1 := ⟨b - 1, by omega⟩
  have e7 : (' ' :: (List.replicate (b1 + 1) fill ++ [rg])).takeWhile pyWS = [' '] := by
    rw [List.takeWhile_cons, if_pos (by decide), List.replicate_succ, List.cons_append,
      takeWhile_cons_false _ hwf]
  have e8 : (' ' :: (List.replicate (b1 + 1) fill ++ [rg])).dropWhile pyWS
      = List.replicate (b1 + 1) fill ++ [rg] := by
    rw [List.dropWhile_cons, if_pos (by decide), List.replicate_succ, List.cons_append,
      dropWhile_cons_false _ hwf, ← List.cons_append, ← List.replicate_succ]
  have e9 : (List.replicate (b1 + 1) fill ++ [rg]).takeWhile (· = fill)
      = List.replicate (b1 + 1) fill := takeWhile_replicate_head _ hfillP hrgP
  have e10 : (List.replicate (b1 + 1) fill ++ [rg]).dropWhile (· = fill) = [rg] :=
    dropWhile_replicate_head _ hfillP hrgP
  have e11 : dropPfx [rg] [rg] = some [] := by simp [dropPfx]
  have c1 : List.replicate a fill ≠ [] := by simp; omega
  have c2 : ([' '] : Line) ≠ [] := by simp
  have c3 : (c :: cs : Line) ≠ [] := by simp
  have c4 : List.replicate (b1 + 1) fill ≠ [] := by simp
  simp only [parseWideOpener, e0, e1, e2, e3, e4, e5, e6, e7, e8, e9, e10, e11,
    if_neg c1, if_neg c2, if_neg c3, if_neg c4, List.dropWhile_nil, if_pos rfl,
    if_true]

theorem fixBorderLine_main_opener {l nm : Line}
    (h : parseWideOpener '╔' '═' '╗' l = some nm) :
    fixBorderLine l = mkOpener '╔' '═' '╗' nm := by
  simp only [fixBorderLine, h]

theorem fixBorderLine_main_closer {l : Line} (h1 : parseWideOpener '╔' '═' '╗' l = none)
    (h2 : parseWideCloser '╚' '═' '╝' l = true) : fixBorderLine l = mainCloser := by
  simp only [fixBorderLine, h1, h2, if_true]

theorem fixBorderLine_sub_opener {l nm : Line} (h1 : parseWideOpener '╔' '═' '╗' l = none)
    (h2 : parseWideCloser '╚' '═' '╝' l = false)
    (h3 : parseWideOpener '┌' '─' '┐' l = some nm) :
    fixBorderLine l = mkOpener '┌' '─' '┐' nm := by
  simp only [fixBorderLine, h1, h2, h3]
  simp

theorem fixBorderLine_sub_closer {l : Line} (h1 : parseWideOpener '╔' '═' '╗' l = none)
    (h2 : parseWideCloser '╚' '═' '╝' l = false)
    (h3 : parseWideOpener '┌' '─' '┐' l = none)
    (h4 : parseWideCloser '└' '─' '┘' l = true) : fixBorderLine l = subCloser := by
  simp only [fixBorderLine, h1, h2, h3, h4]
  simp

theorem fixBorderLine_unrecognized {l : Line} (h1 : parseWideOpener '╔' '═' '╗' l = none)
    (h2 : parseWideCloser '╚' '═' '╝' l = false)
    (h3 : parseWideOpener '┌' '─' '┐' l = none)
    (h4 : parseWideCloser '└' '─' '┘' l = false) : fixBorderLine l = l := by
  simp only [fixBorderLine, h1, h2, h3, h4]
  simp

/-- Openers produced for the main style are re-recognized (or at least
left alone) by a second scan; combined over the four branches this gives
idempotence of the per-line border fix. -/
theorem fixBorderLine_mkOpener_main {nm : Line} (hnm : nm ≠ [])
    (hword : ∀ c ∈ nm, pyWord c = true) :
    fixBorderLine (mkOpener '╔' '═' '╗' nm) = mkOpener '╔' '═' '╗' nm := by
  by_cases hlen : nm.length ≤ 79
  · have hcanon := @mkOpener_eq_canonical '╔' '═' '╗' nm (by omega)
    have hp : parseWideOpener '╔' '═' '╗' (mkOpener '╔' '═' '╗' nm) = some nm := by
      rw [hcanon]
      exact parseWideOpener_canonical (by omega) (by omega) hnm hword
        (by decide) (by decide) (by decide)
    rw [fixBorderLine_main_opener hp, hcanon]
  · obtain ⟨rest, hrest⟩ := @mkOpener_left_space '╔' '═' '╗' nm (by omega)
    rw [hrest]
    exact fixBorderLine_unrecognized
      (parseWideOpener_none_space (by decide) rest)
      (parseWideCloser_none_glyph (by decide) _)
      (parseWideOpener_none_glyph (by decide) _)
      (parseWideCloser_none_glyph (by decide) _)

theorem fixBorderLine_mkOpener_sub {nm : Line} (hnm : nm ≠ [])
    (hword : ∀ c ∈ nm, pyWord c = true) :
    fixBorderLine (mkOpener '┌' '─' '┐' nm) = mkOpener '┌' '─' '┐' nm := by
  by_cases hlen : nm.length ≤ 79
  · have hcanon := @mkOpener_eq_canonical '┌' '─' '┐' nm (by omega)
    have hp : parseWideOpener '┌' '─' '┐' (mkOpener '┌' '─' '┐' nm) = some nm := by
      rw [hcanon]
      exact parseWideOpener_canonical (by omega) (by omega) hnm hword
        (by decide) (by decide) (by decide)
    have hn1 : parseWideOpener '╔' '═' '╗' (mkOpener '┌' '─' '┐' nm) = none := by
      rw [hcanon]
      exact parseWideOpener_none_glyph (by decide) _
    have hn2 : parseWideCloser '╚' '═' '╝' (mkOpener '┌' '─' '┐' nm) = false := by
      rw [hcanon]
      exact parseWideCloser_none_glyph (by decide) _
    rw [fixBorderLine_sub_opener hn1 hn2 hp, hcanon]
  · obtain ⟨rest, hrest⟩ := @mkOpener_left_space '┌' '─' '┐' nm (by omega)
    rw [hrest]
    exact fixBorderLine_unrecognized
      (parseWideOpener_none_glyph (by decide) _)
      (parseWideCloser_none_glyph (by decide) _)
      (parseWideOpener_none_space (by decide) rest)
      (parseWideCloser_none_glyph (by decide) _)

theorem fixBorderLine_mainCloser : fixBorderLine mainCloser = mainCloser := by decide

theorem fixBorderLine_subCloser : fixBorderLine subCloser = subCloser := by decide

theorem fixBorderLine_idem (l : Line) : fixBorderLine (fixBorderLine l) = fixBorderLine l := by
  cases h1 : parseWideOpener '╔' '═' '╗' l with
  | some nm =>
    rw [fixBorderLine_main_opener h1]
    obtain ⟨hnm, hword⟩ := parseWideOpener_name h1
    exact fixBorderLine_mkOpener_main hnm hword
  | none =>
    cases h2 : parseWideCloser '╚' '═' '╝' l with
    | true =>
      rw [fixBorderLine_main_closer h1 h2]
      exact fixBorderLine_mainCloser
    | false =>
      cases h3 : parseWideOpener '┌' '─' '┐' l with
      | some nm =>
        rw [fixBorderLine_sub_opener h1 h2 h3]
        obtain ⟨hnm, hword⟩ := parseWideOpener_name h3
        exact fixBorderLine_mkOpener_sub hnm hword
      | none =>
        cases h4 : parseWideCloser '└' '─' '┘' l with
        | true =>
          rw [fixBorderLine_sub_closer h1 h2 h3 h4]
          exact fixBorderLine_subCloser
        | false =>
          rw [fixBorderLine_unrecognized h1 h2 h3 h4,
            fixBorderLine_unrecognized h1 h2 h3 h4]

theorem mkOpener_shape (lg fill rg : Char) (nm : Line) :
    ∃ k1 k2, mkOpener lg fill rg nm = ['/', '/', ' ', lg] ++ List.replicate k1 fill
      ++ [' '] ++ nm ++ [' '] ++ List.replicate k2 fill ++ [rg] := by
  simp only [mkOpener]
  split
  · exact ⟨_, _, rfl⟩
  · exact ⟨_, _, rfl⟩

theorem mem_mkOpener {x lg fill rg : Char} {nm : Line} (h : x ∈ mkOpener lg fill rg nm) :
    x = '/' ∨ x = ' ' ∨ x = lg ∨ x = rg ∨ x = fill ∨ x ∈ nm := by
  obtain ⟨k1, k2, he⟩ := mkOpener_shape lg fill rg nm
  rw [he] at h
  simp only [List.mem_append, List.mem_cons, List.mem_singleton,
    List.mem_replicate, List.not_mem_nil, or_false] at h
  rcases h with ((((((rfl | rfl | rfl | rfl) | ⟨-, rfl⟩) | rfl) | hm) | rfl) | ⟨-, rfl⟩) | rfl
  · exact Or.inl rfl
  · exact Or.inl rfl
  · exact Or.inr (Or.inl rfl)
  · exact Or.inr (Or.inr (Or.inl rfl))
  · exact Or.inr (Or.inr (Or.inr (Or.inr (Or.inl rfl))))
  · exact Or.inr (Or.inl rfl)
  · exact Or.inr (Or.inr (Or.inr (Or.inr (Or.inr hm))))
  · exact Or.inr (Or.inl rfl)
  · exact Or.inr (Or.inr (Or.inr (Or.inr (Or.inl rfl))))
  · exact Or.inr (Or.inr (Or.inr (Or.inl rfl)))

theorem fixBorderLine_no_newline {l : Line} (hl : '\n' ∉ l) : '\n' ∉ fixBorderLine l := by
  cases h1 : parseWideOpener '╔' '═' '╗' l with
  | some nm =>
    rw [fixBorderLine_main_opener h1]
    obtain ⟨_, hword⟩ := parseWideOpener_name h1
    intro hm
    rcases mem_mkOpener hm with h | h | h | h | h | h
    · exact absurd h (by decide)
    · exact absurd h (by decide)
    · exact absurd h (by decide)
    · exact absurd h (by decide)
    · exact absurd h (by decide)
    · exact absurd (hword _ h) (by decide)
  | none =>
    cases h2 : parseWideCloser '╚' '═' '╝' l with
    | true =>
      rw [fixBorderLine_main_closer h1 h2]
      decide
    | false =>
      cases h3 : parseWideOpener '┌' '─' '┐' l with
      | some nm =>
        rw [fixBorderLine_sub_opener h1 h2 h3]
        obtain ⟨_, hword⟩ := parseWideOpener_name h3
        intro hm
        rcases mem_mkOpener hm with h | h | h | h | h | h
        · exact absurd h (by decide)
        · exact absurd h (by decide)
        · exact absurd h (by decide)
        · exact absurd h (by decide)
        · exact absurd h (by decide)
        · exact absurd (hword _ h) (by decide)
      | none =>
        cases h4 : parseWideCloser '└' '─' '┘' l with
        | true =>
          rw [fixBorderLine_sub_closer h1 h2 h3 h4]
          decide
        | false =>
          rw [fixBorderLine_unrecognized h1 h2 h3 h4]
          exact hl

/-! ## fix_repo_urls facts -/

theorem docsMatchAt_sublist {l p : Line} (h : docsMatchAt l = some p) :
    List.Sublist p l := by
  simp only [docsMatchAt] at h
  split at h
  · exact Option.noConfusion h
  rename_i r heq0
  split at h
  · exact Option.noConfusion h
  rename_i hauth
  split at h
  · exact Option.noConfusion h
  rename_i r3 heq1
  injection h with h2
  subst h2
  exact ((dropPfx_sublist heq1).trans (List.dropWhile_sublist _)).trans
    (dropPfx_sublist heq0)

theorem docsSearch_sublist {l p : Line} (h : docsSearch l = some p) :
    List.Sublist p l := by
  induction l with
  | nil => exact Option.noConfusion h
  | cons c cs ih =>
    simp only [docsSearch] at h
    split at h
    · rename_i heq
      injection h with h2
      subst h2
      exact docsMatchAt_sublist heq
    · exact (ih h).trans (List.sublist_cons_self c cs)

theorem fixUrlLine_no_newline {l : Line} (hl : '\n' ∉ l) : '\n' ∉ fixUrlLine l := by
  unfold fixUrlLine
  split
  · decide
  split
  · split
    · rename_i path heq
      intro hm
      rcases List.mem_append.1 hm with hm | hm
      · revert hm; decide
      · exact hl ((docsSearch_sublist heq).mem hm)
    · exact hl
  · exact hl

/-! ## Text-level machinery -/

theorem map_eq_self_of_forall {f : Line → Line} :
    ∀ {ls : List Line}, (∀ l ∈ ls, f l = l) → ls.map f = ls := by
  intro ls
  induction ls with
  | nil => intro _; rfl
  | cons x xs ih =>
    intro h
    rw [List.map_cons, h x (List.mem_cons_self x xs),
      ih fun l hl => h l (List.mem_cons_of_mem x hl)]

theorem forall_of_map_eq_self {f : Line → Line} :
    ∀ {ls : List Line}, ls.map f = ls → ∀ l ∈ ls, f l = l := by
  intro ls
  induction ls with
  | nil => intro _ l hl; cases hl
  | cons x xs ih =>
    intro h l hl
    rw [List.map_cons] at h
    injection h with h1 h2
    rcases List.mem_cons.1 hl with rfl | hmem
    · exact h1
    · exact ih h2 l hmem

/-- The shared shape of all four standalone passes: join of a per-line
map.  When the per-line map never introduces a newline, the joined text
differs from the input exactly when some line changed. -/
theorem lineMap_text_ne_iff {content : List Char} {f : Line → Line}
    (hf : ∀ l, '\n' ∉ l → '\n' ∉ f l) :
    ['\n'].intercalate ((content.splitOn '\n').map f) ≠ content ↔
      ∃ l ∈ content.splitOn '\n', f l ≠ l := by
  have hrecon : ['\n'].intercalate (content.splitOn '\n') = content :=
    List.intercalate_splitOn content '\n'
  have hsep : ∀ l ∈ content.splitOn '\n', '\n' ∉ f l :=
    fun l hl => hf l (not_mem_of_mem_splitOn hl)
  constructor
  · intro hne
    by_contra hforall
    push_neg at hforall
    rw [map_eq_self_of_forall hforall] at hne
    exact hne hrecon
  · rintro ⟨l, hl, hfl⟩ heq
    have hsplit : (['\n'].intercalate ((content.splitOn '\n').map f)).splitOn '\n'
        = (content.splitOn '\n').map f := splitOn_intercalate_map hsep
    rw [heq] at hsplit
    exact hfl (forall_of_map_eq_self hsplit.symm l hl)

theorem any_flag_iff {lines : List Line} {g : Line → Bool} {f : Line → Line}
    (hg : ∀ l, g l = true ↔ f l ≠ l) :
    lines.any g = true ↔ ∃ l ∈ lines, f l ≠ l := by
  rw [List.any_eq_true]
  constructor
  · rintro ⟨l, hl, hgl⟩
    exact ⟨l, hl, (hg l).1 hgl⟩
  · rintro ⟨l, hl, hfl⟩
    exact ⟨l, hl, (hg l).2 hfl⟩

theorem lineMap_pass_idem_fst {f : Line → Line}
    (hf : ∀ l, '\n' ∉ l → '\n' ∉ f l) (hidem : ∀ l, f (f l) = f l) (c : List Char) :
    ['\n'].intercalate
        (((['\n'].intercalate ((c.splitOn '\n').map f)).splitOn '\n').map f)
      = ['\n'].intercalate ((c.splitOn '\n').map f) := by
  have hsep : ∀ l ∈ c.splitOn '\n', '\n' ∉ f l :=
    fun l hl => hf l (not_mem_of_mem_splitOn hl)
  rw [splitOn_intercalate_map hsep, List.map_map]
  congr 1
  exact List.map_congr_left fun l _ => hidem l

theorem lineMap_pass_idem_snd {f : Line → Line} {g : Line → Bool}
    (hf : ∀ l, '\n' ∉ l → '\n' ∉ f l) (hidem : ∀ l, f (f l) = f l)
    (hg : ∀ l, g l = true ↔ f l ≠ l) (c : List Char) :
    ((['\n'].intercalate ((c.splitOn '\n').map f)).splitOn '\n').any g = false := by
  have hsep : ∀ l ∈ c.splitOn '\n', '\n' ∉ f l :=
    fun l hl => hf l (not_mem_of_mem_splitOn hl)
  rw [splitOn_intercalate_map hsep]
  rw [List.any_eq_false]
  intro l' hl'
  obtain ⟨l, _, rfl⟩ := List.mem_map.1 hl'
  intro hgl
  exact (hg (f l)).1 hgl (hidem l)

theorem fixBorderLine_flag (l : Line) :
    decide (fixBorderLine l ≠ l) = true ↔ fixBorderLine l ≠ l := decide_eq_true_iff

theorem fixUrlLine_flag (l : Line) :
    decide (fixUrlLine l ≠ l) = true ↔ fixUrlLine l ≠ l := decide_eq_true_iff

/-- `fix_section_borders` is idempotent and reports no change on its own
output. -/
theorem fixSectionBorders_idem (c : List Char) :
    fixSectionBorders (fixSectionBorders c).1 = ((fixSectionBorders c).1, false) := by
  have h1 := lineMap_pass_idem_fst (fun l => fixBorderLine_no_newline) fixBorderLine_idem c
  have h2 := lineMap_pass_idem_snd (fun l => fixBorderLine_no_newline) fixBorderLine_idem
    fixBorderLine_flag c
  simp only [fixSectionBorders]
  rw [Prod.mk.injEq]
  exact ⟨h1, h2⟩

/-- `fix_test_braces` is idempotent and reports no change on its own
output. -/
theorem fixTestBraces_idem (c : List Char) :
    fixTestBraces (fixTestBraces c).1 = ((fixTestBraces c).1, false) := by
  have h1 := lineMap_pass_idem_fst (fun l => fixBraceLine_no_newline) fixBraceLine_idem c
  have h2 := lineMap_pass_idem_snd (fun l => fixBraceLine_no_newline) fixBraceLine_idem
    (fun l => braceFlag_iff) c
  simp only [fixTestBraces]
  rw [Prod.mk.injEq]
  exact ⟨h1, h2⟩

/-- `fix_test_names` is idempotent and reports no change on its own
output. -/
theorem fixTestNames_idem (c : List Char) :
    fixTestNames (fixTestNames c).1 = ((fixTestNames c).1, false) := by
  have h1 := lineMap_pass_idem_fst (fun l => fixNameLine_no_newline) fixNameLine_idem c
  have h2 := lineMap_pass_idem_snd (fun l => fixNameLine_no_newline) fixNameLine_idem
    (fun l => nameFlag_iff) c
  simp only [fixTestNames]
  rw [Prod.mk.injEq]
  exact ⟨h1, h2⟩

/-- The `modified` flag of `fix_section_borders` is set exactly when the
returned text differs from the input. -/
theorem fixSectionBorders_modified_iff (c : List Char) :
    (fixSectionBorders c).2 = true ↔ (fixSectionBorders c).1 ≠ c := by
  simp only [fixSectionBorders]
  exact (any_flag_iff fixBorderLine_flag).trans
    (lineMap_text_ne_iff fun l => fixBorderLine_no_newline).symm

theorem fixRepoUrls_modified_iff (c : List Char) :
    (fixRepoUrls c).2 = true ↔ (fixRepoUrls c).1 ≠ c := by
  simp only [fixRepoUrls]
  exact (any_flag_iff fixUrlLine_flag).trans
    (lineMap_text_ne_iff fun l => fixUrlLine_no_newline).symm

theorem fixTestBraces_modified_iff (c : List Char) :
    (fixTestBraces c).2 = true ↔ (fixTestBraces c).1 ≠ c := by
  simp only [fixTestBraces]
  exact (any_flag_iff fun l => braceFlag_iff).trans
    (lineMap_text_ne_iff fun l => fixBraceLine_no_newline).symm

theorem fixTestNames_modified_iff (c : List Char) :
    (fixTestNames c).2 = true ↔ (fixTestNames c).1 ≠ c := by
  simp only [fixTestNames]
  exact (any_flag_iff fun l => nameFlag_iff).trans
    (lineMap_text_ne_iff fun l => fixNameLine_no_newline).symm

/-! ## apply_mcs_fixes section-loop facts -/

theorem infixB_cons (p : Line) (c : Char) (cs : Line) :
    infixB p (c :: cs) = (startsB p (c :: cs) || infixB p cs) := rfl

theorem startsB_cons_ne {d c : Char} (t x : Line) (h : c ≠ d) :
    startsB (d :: t) (c :: x) = false := by
  simp [startsB, dropPfx, h]

theorem infixB_cons_ne {d c : Char} (t x : Line) (h : c ≠ d) :
    infixB (d :: t) (c :: x) = infixB (d :: t) x := by
  rw [infixB_cons, startsB_cons_ne t x h, Bool.false_or]

theorem infixB_dropWhile_ws {d : Char} (t : Line) (hd : pyWS d = false) (l : Line) :
    infixB (d :: t) (l.dropWhile pyWS) = infixB (d :: t) l := by
  induction l with
  | nil => rfl
  | cons c cs ih =>
    by_cases hc : pyWS c
    · have hne : c ≠ d := fun he => by rw [he, hd] at hc; cases hc
      rw [List.dropWhile_cons, if_pos hc, ih, infixB_cons_ne t cs hne]
    · rw [List.dropWhile_cons, if_neg hc]

theorem infixB_indent {d : Char} (t : Line) (hd : pyWS d = false) (l : Line) :
    infixB (d :: t) (List.replicate 4 ' ' ++ l.dropWhile pyWS) = infixB (d :: t) l := by
  have hsp : (' ' : Char) ≠ d := fun he => by
    rw [← he] at hd
    exact absurd hd (by decide)
  show infixB (d :: t) (' ' :: ' ' :: ' ' :: ' ' :: l.dropWhile pyWS) = _
  rw [infixB_cons_ne t _ hsp, infixB_cons_ne t _ hsp, infixB_cons_ne t _ hsp,
    infixB_cons_ne t _ hsp, infixB_dropWhile_ws t hd l]

theorem find?_ext {α : Type} (p q : α → Bool) (l : List α) (h : ∀ a ∈ l, p a = q a) :
    l.find? p = l.find? q := by
  induction l with
  | nil => rfl
  | cons x xs ih =>
    rw [List.find?_cons, List.find?_cons, h x (List.mem_cons_self x xs)]
    split
    · rfl
    · exact ih fun a ha => h a (List.mem_cons_of_mem x ha)

theorem openProbe_head (s : Line) :
    openProbe s = '═' :: (List.replicate 37 '═' ++ [' '] ++ s ++ [' ']
      ++ List.replicate 3 '═') := by
  simp [openProbe, List.replicate_succ, List.append_assoc]

theorem findSec_indent (l : Line) :
    findSec (List.replicate 4 ' ' ++ l.dropWhile pyWS) = findSec l := by
  apply find?_ext
  intro s _
  rw [openProbe_head, infixB_indent _ (by decide) l]

theorem isOpenerL_emit (o : Option Line) (l : Line) :
    ((findSec (emitLine o l)).isSome) = (findSec l).isSome := by
  unfold emitLine
  split
  · rw [show pyLstrip l = l.dropWhile pyWS from rfl, findSec_indent]
  · rfl

theorem parseWideCloser_space_head (lg fill rg : Char) (x : Line) :
    parseWideCloser lg fill rg (' ' :: x) = false := by
  simp [parseWideCloser, dropPfx]

theorem isCloserL_emit (o : Option Line) {l : Line}
    (h : parseWideCloser '╚' '═' '╝' l = false) :
    parseWideCloser '╚' '═' '╝' (emitLine o l) = false := by
  unfold emitLine
  split
  · show parseWideCloser '╚' '═' '╝' (' ' :: _) = false
    exact parseWideCloser_space_head _ _ _ _
  · exact h

theorem parseWideCloser_shape {lg fill rg : Char} {l : Line}
    (h : parseWideCloser lg fill rg l = true) :
    ∃ r, l = ['/', '/', ' ', lg] ++ r := by
  simp only [parseWideCloser] at h
  split at h
  · exact Bool.noConfusion h
  rename_i r0 heq
  exact ⟨r0, dropPfx_eq_some.1 heq⟩

theorem pyStrip_cons_head {c : Char} (rest : Line) (hc : pyWS c = false) :
    ∃ t, pyStrip (c :: rest) = c :: t := by
  unfold pyStrip
  rw [dropWhile_cons_false _ hc]
  have : ((c :: rest).reverse).dropWhile pyWS = (rest.reverse).dropWhile pyWS ++ [c] := by
    rw [List.reverse_cons]
    by_cases hrw : (rest.reverse).dropWhile pyWS = []
    · rw [dropWhile_append_all _ (dropWhile_eq_nil_all hrw), hrw,
        List.nil_append, dropWhile_cons_false _ hc]
    · exact dropWhile_append_ne_nil [c] hrw
  rw [this, List.reverse_append]
  exact ⟨_, rfl⟩

theorem isCloserL_testIndent (l : Line) :
    parseWideCloser '╚' '═' '╝' (testIndentLine l) = parseWideCloser '╚' '═' '╝' l := by
  unfold testIndentLine
  split
  · rename_i hcond
    cases hcl : parseWideCloser '╚' '═' '╝' l with
    | false =>
      show parseWideCloser '╚' '═' '╝' (' ' :: _) = false
      exact parseWideCloser_space_head _ _ _ _
    | true =>
      obtain ⟨r, hr⟩ := parseWideCloser_shape hcl
      exfalso
      subst hr
      obtain ⟨t, ht⟩ := pyStrip_cons_head _ (show pyWS '/' = false by decide)
      rw [show (['/', '/', ' ', '╚'] ++ r : Line) = '/' :: ('/' :: ' ' :: '╚' :: r)
        from rfl, ht] at hcond
      rw [show ("test \"".data) = 't' :: "est \"".data from rfl,
        startsB_cons_ne _ _ (by decide)] at hcond
      cases hcond
  · rfl

theorem isOpenerL_testIndent (l : Line) :
    (findSec (testIndentLine l)).isSome = (findSec l).isSome := by
  unfold testIndentLine
  split
  · rw [show pyLstrip l = l.dropWhile pyWS from rfl, findSec_indent]
  · rfl

theorem isCloserL_applyCloser : isCloserL applyCloser = true := by decide

theorem isOpenerL_applyCloser : isOpenerL applyCloser = false := by decide

theorem isCloserL_blank : isCloserL [] = false := by decide

theorem isOpenerL_blank : isOpenerL [] = false := by decide

theorem isOpenerL_emit_eq (o : Option Line) (l : Line) :
    isOpenerL (emitLine o l) = isOpenerL l := isOpenerL_emit o l

theorem isCloserL_emit_eq (o : Option Line) {l : Line} (h : isCloserL l = false) :
    isCloserL (emitLine o l) = false := isCloserL_emit o h

theorem secLoop_counts : ∀ (ls : List Line) (i : Nat) (inSec : Option Line),
    (∀ l ∈ ls, isCloserL l = false) → (inSec.isSome → 0 < i) →
    cntC (secLoop i inSec ls)
      = cntO (secLoop i inSec ls) + (if inSec.isSome then 1 else 0) := by
  intro ls
  induction ls with
  | nil =>
    intro i inSec _ _
    cases inSec with
    | none => rfl
    | some s =>
      show cntC [[], applyCloser] = cntO [[], applyCloser] + 1
      simp [cntC, cntO, List.countP_cons, isCloserL_applyCloser, isOpenerL_applyCloser,
        isCloserL_blank, isOpenerL_blank]
  | cons l ls ih =>
    intro i inSec hin hi
    have hl : isCloserL l = false := hin l (List.mem_cons_self l ls)
    have hin2 : ∀ x ∈ ls, isCloserL x = false :=
      fun x hx => hin x (List.mem_cons_of_mem l hx)
    cases hfs : findSec l with
    | some s =>
      have hrec := ih (i + 1) (some s) hin2 (fun _ => Nat.succ_pos i)
      have hemitO : isOpenerL (emitLine (some s) l) = true := by
        rw [isOpenerL_emit_eq]
        show (findSec l).isSome = true
        rw [hfs]
        rfl
      have hemitC : isCloserL (emitLine (some s) l) = false := isCloserL_emit_eq _ hl
      simp only [secLoop, hfs]
      cases inSec with
      | none =>
        rw [if_neg (by simp)]
        simp only [List.nil_append, cntC, cntO, List.countP_cons] at hrec ⊢
        rw [hemitO, hemitC]
        simp only [Option.isSome_some, Option.isSome_none] at hrec ⊢
        omega
      | some t =>
        have h0i : 0 < i := hi rfl
        rw [if_pos ⟨rfl, h0i⟩]
        simp only [cntC, cntO, List.countP_append, List.countP_cons] at hrec ⊢
        rw [hemitO, hemitC]
        simp only [isCloserL_applyCloser, isOpenerL_applyCloser, isCloserL_blank,
          isOpenerL_blank, List.countP_nil, Option.isSome_some] at hrec ⊢
        omega
    | none =>
      have hrec := ih (i + 1) inSec hin2 (fun _ => Nat.succ_pos i)
      have hemitO : isOpenerL (emitLine inSec l) = false := by
        rw [isOpenerL_emit_eq]
        show (findSec l).isSome = false
        rw [hfs]
        rfl
      have hemitC : isCloserL (emitLine inSec l) = false := isCloserL_emit_eq _ hl
      simp only [secLoop, hfs]
      simp only [cntC, cntO, List.countP_cons] at hrec ⊢
      rw [hemitO, hemitC]
      omega

theorem secLoop_prefix : ∀ (ls : List Line) (i : Nat) (inSec : Option Line),
    (∀ l ∈ ls, isCloserL l = false) → (inSec.isSome → 0 < i) →
    ∀ k, cntC ((secLoop i inSec ls).take k)
      ≤ cntO ((secLoop i inSec ls).take k) + (if inSec.isSome then 1 else 0) := by
  intro ls
  induction ls with
  | nil =>
    intro i inSec _ _ k
    cases inSec with
    | none => simp [secLoop, cntC, cntO]
    | some s =>
      show cntC (([[], applyCloser] : List Line).take k)
        ≤ cntO (([[], applyCloser] : List Line).take k) + 1
      rcases k with _ | _ | k <;>
        simp [cntC, cntO, List.countP_cons, isCloserL_applyCloser,
          isOpenerL_applyCloser, isCloserL_blank, isOpenerL_blank]
  | cons l ls ih =>
    intro i inSec hin hi k
    have hl : isCloserL l = false := hin l (List.mem_cons_self l ls)
    have hin2 : ∀ x ∈ ls, isCloserL x = false :=
      fun x hx => hin x (List.mem_cons_of_mem l hx)
    cases hfs : findSec l with
    | some s =>
      have hrec := ih (i + 1) (some s) hin2 (fun _ => Nat.succ_pos i)
      have hemitO : isOpenerL (emitLine (some s) l) = true := by
        rw [isOpenerL_emit_eq]
        show (findSec l).isSome = true
        rw [hfs]
        rfl
      have hemitC : isCloserL (emitLine (some s) l) = false := isCloserL_emit_eq _ hl
      simp only [secLoop, hfs]
      cases inSec with
      | none =>
        rw [if_neg (by simp)]
        rcases k with _ | k
        · simp [cntC, cntO]
        · have hr := hrec k
          have hite1 : (if (some s).isSome then 1 else 0) = 1 := rfl
          have hite0 : (if (none : Option Line).isSome then 1 else 0) = 0 := rfl
          simp only [hite1, hite0,
            show (if (true = true) then (1 : Nat) else 0) = 1 from rfl,
            show (if (false = true) then (1 : Nat) else 0) = 0 from rfl,
            List.nil_append, List.take_succ_cons, cntC, cntO,
            List.countP_cons] at hr ⊢
          rw [hemitO, hemitC]
          simp at hr ⊢
          omega
      | some t =>
        have h0i : 0 < i := hi rfl
        rw [if_pos ⟨rfl, h0i⟩]
        have hsh : ([[], applyCloser, []] : List Line) ++ emitLine (some s) l
            :: secLoop (i + 1) (some s) ls
            = [] :: applyCloser :: [] :: emitLine (some s) l
              :: secLoop (i + 1) (some s) ls := rfl
        rw [hsh]
        rcases k with _ | _ | _ | _ | k
        · simp [cntC, cntO]
        · simp [cntC, cntO, List.countP_cons, isCloserL_blank, isOpenerL_blank]
        · simp [cntC, cntO, List.countP_cons, isCloserL_blank, isOpenerL_blank,
            isCloserL_applyCloser, isOpenerL_applyCloser]
        · simp [cntC, cntO, List.countP_cons, isCloserL_blank, isOpenerL_blank,
            isCloserL_applyCloser, isOpenerL_applyCloser]
        · have hr := hrec k
          have hite1 : (if (some s).isSome then 1 else 0) = 1 := rfl
          have hite2 : (if (some t).isSome then 1 else 0) = 1 := rfl
          simp only [hite1, hite2,
            show (if (true = true) then (1 : Nat) else 0) = 1 from rfl,
            List.take_succ_cons, cntC, cntO, List.countP_cons] at hr ⊢
          rw [hemitO, hemitC]
          simp only [isCloserL_applyCloser, isOpenerL_applyCloser, isCloserL_blank,
            isOpenerL_blank] at hr ⊢
          omega
    | none =>
      have hrec := ih (i + 1) inSec hin2 (fun _ => Nat.succ_pos i)
      have hemitO : isOpenerL (emitLine inSec l) = false := by
        rw [isOpenerL_emit_eq]
        show (findSec l).isSome = false
        rw [hfs]
        rfl
      have hemitC : isCloserL (emitLine inSec l) = false := isCloserL_emit_eq _ hl
      simp only [secLoop, hfs]
      rcases k with _ | k
      · simp [cntC, cntO]
      · have hr := hrec k
        simp only [List.take_succ_cons, cntC, cntO, List.countP_cons] at hr ⊢
        rw [hemitO, hemitC]
        omega

theorem isCloserL_testIndent_eq (l : Line) :
    isCloserL (testIndentLine l) = isCloserL l := isCloserL_testIndent l

theorem isOpenerL_testIndent_eq (l : Line) :
    isOpenerL (testIndentLine l) = isOpenerL l := isOpenerL_testIndent l

theorem countP_map_eq {p : Line → Bool} {f : Line → Line}
    (h : ∀ l, p (f l) = p l) : ∀ ls : List Line, (ls.map f).countP p = ls.countP p := by
  intro ls
  induction ls with
  | nil => rfl
  | cons x xs ih => simp [List.countP_cons, h, ih]

/-- The section pass emits equally many openers and closers when the
input has no closer lines. -/
theorem applySectionPass_counts {ls : List Line} (hin : ∀ l ∈ ls, isCloserL l = false) :
    cntC (applySectionPass ls) = cntO (applySectionPass ls) := by
  unfold applySectionPass
  show ((secLoop 0 none ls).map testIndentLine).countP isCloserL
    = ((secLoop 0 none ls).map testIndentLine).countP isOpenerL
  rw [countP_map_eq isCloserL_testIndent_eq, countP_map_eq isOpenerL_testIndent_eq]
  have := secLoop_counts ls 0 none hin (by simp)
  simpa [cntC, cntO] using this

/-- In every prefix of the section pass output, closers never outnumber
openers: each closer is preceded by its opener. -/
theorem applySectionPass_prefix {ls : List Line} (hin : ∀ l ∈ ls, isCloserL l = false)
    (k : Nat) :
    cntC ((applySectionPass ls).take k) ≤ cntO ((applySectionPass ls).take k) := by
  unfold applySectionPass
  show (((secLoop 0 none ls).map testIndentLine).take k).countP isCloserL
    ≤ (((secLoop 0 none ls).map testIndentLine).take k).countP isOpenerL
  rw [← List.map_take, countP_map_eq isCloserL_testIndent_eq,
    countP_map_eq isOpenerL_testIndent_eq]
  have := secLoop_prefix ls 0 none hin (by simp) k
  simpa [cntC, cntO] using this

theorem fixBorderLine_eq_of_unrecognizedB {l : Line} (h : recognizedBorder l = false) :
    fixBorderLine l = l := by
  cases h1 : parseWideOpener '╔' '═' '╗' l with
  | some nm =>
    rw [recognizedBorder, h1] at h
    simp at h
  | none =>
    cases h2 : parseWideCloser '╚' '═' '╝' l with
    | true =>
      rw [recognizedBorder, h2] at h
      simp at h
    | false =>
      cases h3 : parseWideOpener '┌' '─' '┐' l with
      | some nm =>
        rw [recognizedBorder, h3] at h
        simp at h
      | none =>
        cases h4 : parseWideCloser '└' '─' '┘' l with
        | true =>
          rw [recognizedBorder, h4] at h
          simp at h
        | false => exact fixBorderLine_unrecognized h1 h2 h3 h4

/-- The line sequence of the border pass output is exactly the per-line
image of the input's line sequence. -/
theorem fixSectionBorders_lines (c : List Char) :
    ((fixSectionBorders c).1).splitOn '\n' = (c.splitOn '\n').map fixBorderLine := by
  simp only [fixSectionBorders]
  exact splitOn_intercalate_map
    fun l hl => fixBorderLine_no_newline (not_mem_of_mem_splitOn hl)

/-- `process_file` writes exactly when the pass reported a change and
neither the read nor the write raised. -/
theorem processFile_write_iff (fix : List Char → List Char × Bool) (fc : FileCase) :
    (processFile fix fc).2 = true ↔
      ∃ c, fc.readRes = .ok c ∧ (fix c).2 = true ∧ fc.writeRaises = false := by
  unfold processFile
  cases hr : fc.readRes with
  | error e => simp
  | ok c =>
    by_cases hm : (fix c).2 = true
    · cases hw : fc.writeRaises with
      | true => simp [hm, hw]
      | false => simp [hm, hw]
    · simp [hm]

/-- `process_file` never writes when the pass reports no change. -/
theorem processFile_no_write {fix : List Char → List Char × Bool} {c : List Char}
    {w : Bool} (h : (fix c).2 = false) :
    processFile fix ⟨.ok c, w⟩ = (false, false) := by
  unfold processFile
  simp [h]

/-- The standalone scripts process every file: the reported total always
equals the number of discovered files, whatever read or write errors
individual files hit. -/
theorem runScript_total (fix : List Char → List Char × Bool) (files : List FileCase) :
    (runScript fix files).2 = files.length := rfl

theorem parseWideOpener_shape {lg fill rg : Char} {l nm : Line}
    (h : parseWideOpener lg fill rg l = some nm) :
    ∃ r, l = ['/', '/', ' ', lg] ++ r := by
  simp only [parseWideOpener] at h
  split at h
  · exact Option.noConfusion h
  rename_i r0 heq0
  exact ⟨r0, dropPfx_eq_some.1 heq0⟩

/-! ## Claims -/

/-- C1: the spec claims every opener *and closer* replacement line of the
border engine has exactly 88 printable columns, and so does the script's
own docstring, but the closer the code emits is `"// ╚" + 84·"═" + "╝"`,
which is 89 columns: the code contradicts its stated 88-column goal. -/
theorem c1_closer_width_bug :
    fixBorderLine closerLine0 = mainCloser ∧ mainCloser.length = 89 := by
  constructor
  · decide
  · decide

/-- C2 counterexample: the URL pass is not idempotent — re-running it on
its own output inserts another `zig-nfl-clock/` segment into the docs
line — and neither is the combined header pass, which appends a second
closer when re-applied. -/
theorem c2_counterexample :
    (fixRepoUrls ((fixRepoUrls docsLine0).1)).1 ≠ (fixRepoUrls docsLine0).1
    ∧ applyMcsFixes applyPath0 (applyMcsFixes applyPath0 applyInput0)
      ≠ applyMcsFixes applyPath0 applyInput0 := by
  constructor
  · decide
  · decide

/-- C2 amended: the border fix, brace fix, and name fix passes are
idempotent on every input text (and the second run reports no change);
the URL fix and the combined header fix are not idempotent. -/
theorem c2_amended (c : List Char) :
    fixSectionBorders (fixSectionBorders c).1 = ((fixSectionBorders c).1, false)
    ∧ fixTestBraces (fixTestBraces c).1 = ((fixTestBraces c).1, false)
    ∧ fixTestNames (fixTestNames c).1 = ((fixTestNames c).1, false) :=
  ⟨fixSectionBorders_idem c, fixTestBraces_idem c, fixTestNames_idem c⟩

/-- C3 counterexample: on an input that already contains a closer line
(here the engine's own canonical closer), the section pass output has
one opener but two closers — the counts are not equal. -/
theorem c3_counterexample :
    cntC (applySectionPass secInput0) ≠ cntO (applySectionPass secInput0)
    ∧ cntO (applySectionPass secInput0) = 1
    ∧ cntC (applySectionPass secInput0) = 2 := by
  refine ⟨?_, ?_, ?_⟩ <;> decide

/-- C3 amended: for every input line sequence containing no closer line,
the section pass emits equally many openers and closers, and in every
prefix of the output the closers never outnumber the openers, so each
opener precedes its corresponding closer; inputs already holding closer
lines can violate the balance. -/
theorem c3_amended (ls : List Line) (hin : ∀ l ∈ ls, isCloserL l = false) :
    cntC (applySectionPass ls) = cntO (applySectionPass ls)
    ∧ ∀ k, cntC ((applySectionPass ls).take k) ≤ cntO ((applySectionPass ls).take k) :=
  ⟨applySectionPass_counts hin, applySectionPass_prefix hin⟩

theorem c3_witness :
    cntC (applySectionPass [openerHard ("PACK".data), "x".data])
      = cntO (applySectionPass [openerHard ("PACK".data), "x".data])
    ∧ cntC ((applySectionPass [openerHard ("PACK".data), "x".data]).take 2)
      ≤ cntO ((applySectionPass [openerHard ("PACK".data), "x".data]).take 2) :=
  ⟨(c3_amended _ (by decide)).1, (c3_amended _ (by decide)).2 2⟩

/-- C4 counterexample: on the opener `// ╔═ AB ═╗` the fill budget
81 − 2 = 79 is odd, and the engine emits 39 fill characters on the left
and 40 on the right — the leftover goes to the right run, not the left
as claimed. -/
theorem c4_counterexample :
    fixBorderLine openerLine0
      = ['/', '/', ' ', '╔'] ++ List.replicate 39 '═' ++ ' ' ::
        ("AB".data ++ ' ' :: (List.replicate 40 '═' ++ ['╗']))
    ∧ fixBorderLine openerLine0
      ≠ ['/', '/', ' ', '╔'] ++ List.replicate 40 '═' ++ ' ' ::
        ("AB".data ++ ' ' :: (List.replicate 39 '═' ++ ['╗'])) := by
  constructor
  · decide
  · decide

/-- C4 amended: on every recognized opener line whose fill budget is
odd, the engine puts the floor half on the left and the leftover fill
character on the right, so the emitted right run is one character
longer than the left run (shown for both marker styles). -/
theorem c4_amended (l nm : Line) (h1 : 1 ≤ nm.length) (h2 : nm.length ≤ 20)
    (hodd : (81 - nm.length) % 2 = 1) :
    (parseWideOpener '╔' '═' '╗' l = some nm →
      fixBorderLine l = ['/', '/', ' ', '╔']
        ++ List.replicate ((81 - nm.length) / 2) '═' ++ ' ' ::
          (nm ++ ' ' :: (List.replicate ((81 - nm.length) / 2 + 1) '═' ++ ['╗'])))
    ∧ (parseWideCloser '╚' '═' '╝' l = false →
        parseWideOpener '┌' '─' '┐' l = some nm →
      fixBorderLine l = ['/', '/', ' ', '┌']
        ++ List.replicate ((81 - nm.length) / 2) '─' ++ ' ' ::
          (nm ++ ' ' :: (List.replicate ((81 - nm.length) / 2 + 1) '─' ++ ['┐']))) := by
  have hr : 81 - nm.length - (81 - nm.length) / 2 = (81 - nm.length) / 2 + 1 := by omega
  constructor
  · intro hp
    rw [fixBorderLine_main_opener hp, mkOpener_eq_canonical (by omega), hr]
  · intro hc hp
    obtain ⟨r, hrshape⟩ := parseWideOpener_shape hp
    have hn1 : parseWideOpener '╔' '═' '╗' l = none := by
      rw [hrshape]
      exact parseWideOpener_none_glyph (by decide) r
    rw [fixBorderLine_sub_opener hn1 hc hp, mkOpener_eq_canonical (by omega), hr]

theorem c4_witness :
    fixBorderLine ("// ╔═ CORE ═╗".data)
      = ['/', '/', ' ', '╔']
        ++ List.replicate ((81 - ("CORE".data).length) / 2) '═' ++ ' ' ::
          ("CORE".data ++ ' ' ::
            (List.replicate ((81 - ("CORE".data).length) / 2 + 1) '═' ++ ['╗'])) :=
  (c4_amended ("// ╔═ CORE ═╗".data) ("CORE".data)
    (by decide) (by decide) (by decide)).1 (by decide)

/-- C5: the claim — and plainly the intent of a renaming tool — is that
only the component token changes, but on a line carrying text after the
quoted title (the opening brace of the test body) the rewrite drops
everything after the title's closing quote: the brace is deleted. -/
theorem c5_trailing_text_bug :
    fixNameLine nameLine0 = "test \"u: GameClock: init\"".data
    ∧ fixNameLine nameLine0 ≠ "test \"u: GameClock: init\" \x7b".data := by
  constructor
  · decide
  · decide

/-- C6 counterexample: the canonical nine-line conformant header (plus a
body line) is left alone by the border, brace and name passes, yet the
URL pass rewrites it — its docs-line re-basing inserts a
`zig-nfl-clock/` segment even into the canonical docs line — so the
conformant file is reported modified and written back. -/
theorem c6_counterexample :
    (fixRepoUrls conformant0).2 = true
    ∧ (fixRepoUrls conformant0).1 ≠ conformant0 := by
  constructor
  · decide
  · decide

/-- C6 amended: the border, brace and name passes return a conformant
file unchanged with `modified = false`, and `process_file` writes back
exactly when the pass reported a change (for the four standalone passes
that flag is equivalent to the text differing); the URL pass, however,
modifies even a conformant file, and `apply_mcs_fixes` writes
unconditionally. -/
theorem c6_amended (fix : List Char → List Char × Bool) (fc : FileCase) :
    fixSectionBorders conformant0 = (conformant0, false)
    ∧ fixTestBraces conformant0 = (conformant0, false)
    ∧ fixTestNames conformant0 = (conformant0, false)
    ∧ ((processFile fix fc).2 = true ↔
        ∃ c, fc.readRes = .ok c ∧ (fix c).2 = true ∧ fc.writeRaises = false)
    ∧ (fixRepoUrls conformant0).1 ≠ conformant0 :=
  ⟨by decide, by decide, by decide, processFile_write_iff fix fc, by decide⟩

/-- C7 counterexample: in `apply_mcs_fixes.main` a read error on the
second file escapes the loop and aborts the whole run — the third file
is never processed — because `apply_mcs_fixes` runs with no
`try`/`except` around it. -/
theorem c7_counterexample :
    runApplyMain [⟨true, .ok conformant0, applyPath0⟩,
      ⟨true, .error (), applyPath0⟩,
      ⟨true, .ok conformant0, applyPath0⟩] = .error () := rfl

/-- C7 amended: each of the four standalone scripts catches any
exception raised while reading, transforming or writing a single file
and continues: a run over any file list, with an erroring file anywhere
in the middle, still reports a total equal to the full list length, and
its fixed-file count is exactly the counts of the surrounding files
(the erroring file contributes nothing).  The combined
`apply_mcs_fixes` run does not enjoy this (see its counterexample). -/
theorem c7_amended (fix : List Char → List Char × Bool) (pre post : List FileCase)
    (w : Bool) :
    (runScript fix (pre ++ ⟨.error (), w⟩ :: post)).2 = pre.length + 1 + post.length
    ∧ (runScript fix (pre ++ ⟨.error (), w⟩ :: post)).1
      = (runScript fix pre).1 + (runScript fix post).1 := by
  constructor
  · rw [runScript_total]
    simp [List.length_append]
    omega
  · simp only [runScript, List.map_append, List.map_cons, List.count_append,
      List.count_cons]
    have h : (processFile fix ⟨.error (), w⟩).1 = false := rfl
    rw [h]
    simp

/-- C8: a line of optional leading whitespace, the `test` keyword, a
quoted title and end of line gets the block-opening token appended
exactly once; any non-matching line — in particular one already
carrying the token — is untouched, and the whole pass is idempotent. -/
theorem c8_brace_append (l : Line) (c : List Char) :
    (parseBraceLine l = true → fixBraceLine l = l ++ [' ', '\x7b'])
    ∧ (parseBraceLine l = false → fixBraceLine l = l)
    ∧ fixTestBraces (fixTestBraces c).1 = ((fixTestBraces c).1, false) := by
  refine ⟨fun h => ?_, fun h => ?_, fixTestBraces_idem c⟩
  · simp [fixBraceLine, h]
  · simp [fixBraceLine, h]

theorem c8_witness :
    fixBraceLine ("test \"x: foo\"".data) = "test \"x: foo\"".data ++ [' ', '\x7b']
    ∧ fixBraceLine ("test \"x: foo\" \x7b".data) = "test \"x: foo\" \x7b".data :=
  ⟨(c8_brace_append ("test \"x: foo\"".data) []).1 (by decide),
   (c8_brace_append ("test \"x: foo\" \x7b".data) []).2.1 (by decide)⟩

/-- C9: the standalone border pass maps `fix_section_borders` over the
input's lines — the output has exactly as many lines as the input, each
line is the border-rewrite of the corresponding input line, and any
line matching none of the four marker patterns is returned unchanged;
the pass never inserts or deletes a line. -/
theorem c9_line_frame (c : List Char) :
    ((fixSectionBorders c).1.splitOn '\n').length = (c.splitOn '\n').length
    ∧ (fixSectionBorders c).1.splitOn '\n' = (c.splitOn '\n').map fixBorderLine
    ∧ ∀ l, recognizedBorder l = false → fixBorderLine l = l := by
  refine ⟨?_, fixSectionBorders_lines c, fun l h => fixBorderLine_eq_of_unrecognizedB h⟩
  rw [fixSectionBorders_lines c, List.length_map]

theorem c9_witness :
    (((fixSectionBorders ("a\nb".data)).1.splitOn '\n').length
      = (("a\nb".data).splitOn '\n').length)
    ∧ fixBorderLine ("plain line".data) = "plain line".data :=
  ⟨(c9_line_frame ("a\nb".data)).1,
   (c9_line_frame ("a\nb".data)).2.2 ("plain line".data) (by decide)⟩

/-- C10: each of the four standalone passes reports `modified = true`
exactly when the text it returns differs from its input. -/
theorem c10_modified_iff (c : List Char) :
    ((fixSectionBorders c).2 = true ↔ (fixSectionBorders c).1 ≠ c)
    ∧ ((fixRepoUrls c).2 = true ↔ (fixRepoUrls c).1 ≠ c)
    ∧ ((fixTestBraces c).2 = true ↔ (fixTestBraces c).1 ≠ c)
    ∧ ((fixTestNames c).2 = true ↔ (fixTestNames c).1 ≠ c) :=
  ⟨fixSectionBorders_modified_iff c, fixRepoUrls_modified_iff c,
   fixTestBraces_modified_iff c, fixTestNames_modified_iff c⟩
